import Mathlib

/-!
Verification development for the MLex code-mixed Malay lexicon toolkit.

The definitions below are a shallow embedding of the word-sense
disambiguation pipeline of the repository, translated from
`scripts/ollama_service.py`, `scripts/gemini_wsd_service.py` and
`scripts/streamlit_app.py`.  Python floats are modelled as rationals,
Python dictionaries as association lists, and the standard library
function `json.loads` as an executable recursive-descent parser
(`jsonParse`).  Fallible code returns `Option`.
-/

namespace MLex

/-- Whitespace test matching the Python `str.isspace` / regex `\s` class. -/
def pyIsSpace (c : Char) : Bool :=
  c = ' ' || c = '\t' || c = '\n' || c = '\r' || c = '\x0b' || c = '\x0c'

/-- Drop leading whitespace, as a JSON lexer does between tokens. -/
def skipWs (l : List Char) : List Char := l.dropWhile pyIsSpace

/-- Values produced by `json.loads`: null, booleans, numbers (ints and
floats both modelled as rationals), strings, arrays and objects
(association lists, later key wins on lookup as in a Python dict). -/
inductive Json : Type where
  | jnull : Json
  | jbool : Bool → Json
  | jnum : ℚ → Json
  | jstr : String → Json
  | jarr : List Json → Json
  | jobj : List (String × Json) → Json



/-- Lookup in a decoded object, mirroring `dict.get`: the last binding of
a key wins, absent key gives `none`. -/
def pyGet (fields : List (String × Json)) (k : String) : Option Json :=
  fields.foldl (fun acc p => if p.1 = k then some p.2 else acc) none

/-- Key-membership test mirroring `k in dict`. -/
def hasKey (fields : List (String × Json)) (k : String) : Bool :=
  fields.any (fun p => p.1 = k)

/-- Decoding of a JSON string escape character. -/
def escChar (e : Char) : Option Char :=
  if e = '"' then some '"' else
  if e = '\\' then some '\\' else
  if e = '/' then some '/' else
  if e = 'n' then some '\n' else
  if e = 't' then some '\t' else
  if e = 'r' then some '\r' else
  if e = 'b' then some (Char.ofNat 8) else
  if e = 'f' then some (Char.ofNat 12) else none

/-- Parse the body of a JSON string literal after the opening quote,
returning the decoded characters and the rest of the input.  Raw control
characters are rejected, as `json.loads` does in strict mode. -/
def parseStrBody : List Char → Option (List Char × List Char)
  | [] => none
  | c :: rest =>
    if c = '"' then some ([], rest)
    else if c = '\\' then
      match rest with
      | [] => none
      | e :: rest2 =>
        match escChar e with
        | none => none
        | some ec =>
          match parseStrBody rest2 with
          | none => none
          | some (s, r) => some (ec :: s, r)
    else if c.toNat < 32 then none
    else
      match parseStrBody rest with
      | none => none
      | some (s, r) => some (c :: s, r)

/-- Numeric value of a digit run. -/
def digitsVal (ds : List Char) : Nat :=
  ds.foldl (fun a c => a * 10 + (c.toNat - 48)) 0

/-- Parse a JSON number (optional minus sign, integer part, optional
fractional part); exponents are not needed by any input in this
development. -/
def parseNum (l : List Char) : Option (ℚ × List Char) :=
  let sign : Bool × List Char := match l with
    | '-' :: r => (true, r)
    | _ => (false, l)
  let ds := sign.2.takeWhile Char.isDigit
  let l2 := sign.2.dropWhile Char.isDigit
  if ds = [] then none
  else
    let ip : ℚ := (digitsVal ds : ℚ)
    match l2 with
    | '.' :: l3 =>
      let fs := l3.takeWhile Char.isDigit
      let l4 := l3.dropWhile Char.isDigit
      if fs = [] then none
      else
        let v : ℚ := ip + (digitsVal fs : ℚ) / ((10 : ℚ) ^ fs.length)
        some ((if sign.1 then -v else v), l4)
    | _ => some ((if sign.1 then -ip else ip), l2)

mutual

/-- Recursive-descent JSON value parser (fuel-indexed), modelling
`json.loads` on the payload shapes this repository exchanges. -/
def parseValue : Nat → List Char → Option (Json × List Char)
  | 0, _ => none
  | Nat.succ fuel, l =>
    match skipWs l with
    | '{' :: rest => parseObjAfterBrace fuel rest
    | '[' :: rest => parseArrAfterBracket fuel rest
    | '"' :: rest =>
      match parseStrBody rest with
      | none => none
      | some (s, r) => some (Json.jstr (String.mk s), r)
    | 't' :: 'r' :: 'u' :: 'e' :: rest => some (Json.jbool true, rest)
    | 'f' :: 'a' :: 'l' :: 's' :: 'e' :: rest => some (Json.jbool false, rest)
    | 'n' :: 'u' :: 'l' :: 'l' :: rest => some (Json.jnull, rest)
    | l2 =>
      match parseNum l2 with
      | none => none
      | some (q, r) => some (Json.jnum q, r)

/-- Parse an array body directly after the opening bracket. -/
def parseArrAfterBracket : Nat → List Char → Option (Json × List Char)
  | 0, _ => none
  | Nat.succ fuel, l =>
    match skipWs l with
    | ']' :: rest => some (Json.jarr [], rest)
    | l2 =>
      match parseArrElems fuel l2 with
      | none => none
      | some (vs, r) => some (Json.jarr vs, r)

/-- Parse one or more comma-separated array elements up to the closing
bracket. -/
def parseArrElems : Nat → List Char → Option (List Json × List Char)
  | 0, _ => none
  | Nat.succ fuel, l =>
    match parseValue fuel l with
    | none => none
    | some (v, r) =>
      match skipWs r with
      | ',' :: r2 =>
        match parseArrElems fuel r2 with
        | none => none
        | some (vs, r3) => some (v :: vs, r3)
      | ']' :: r2 => some ([v], r2)
      | _ => none

/-- Parse an object body directly after the opening brace. -/
def parseObjAfterBrace : Nat → List Char → Option (Json × List Char)
  | 0, _ => none
  | Nat.succ fuel, l =>
    match skipWs l with
    | '}' :: rest => some (Json.jobj [], rest)
    | l2 =>
      match parseObjElems fuel l2 with
      | none => none
      | some (kvs, r) => some (Json.jobj kvs, r)

/-- Parse one or more comma-separated key-value pairs up to the closing
brace. -/
def parseObjElems : Nat → List Char → Option (List (String × Json) × List Char)
  | 0, _ => none
  | Nat.succ fuel, l =>
    match skipWs l with
    | '"' :: rest =>
      match parseStrBody rest with
      | none => none
      | some (k, r) =>
        match skipWs r with
        | ':' :: r2 =>
          match parseValue fuel r2 with
          | none => none
          | some (v, r3) =>
            match skipWs r3 with
            | ',' :: r4 =>
              match parseObjElems fuel r4 with
              | none => none
              | some (kvs, r5) => some ((String.mk k, v) :: kvs, r5)
            | '}' :: r4 => some ([(String.mk k, v)], r4)
            | _ => none
        | _ => none
    | _ => none

end

/-- Full-input JSON parse: a single top-level value followed only by
whitespace, exactly as `json.loads` requires. -/
def jsonParse (s : String) : Option Json :=
  match parseValue (s.data.length + 8) s.data with
  | some (v, rest) => if skipWs rest = [] then some v else none
  | none => none

/-!
Model of `OllamaService._clean_json_for_wsd` (ollama_service.py, lines
318-388).  The function is a pipeline of four passes over the raw text.
-/

/-- Length bound for dropWhile, used for termination of the pass-1
rewriter. -/
theorem dropWhile_length_le (p : Char → Bool) (l : List Char) :
    (l.dropWhile p).length ≤ l.length := by
  induction l with
  | nil => simp
  | cons a l ih =>
    simp only [List.dropWhile]
    split
    · simp only [List.length_cons]
      omega
    · simp

/-- Strict length bound used for termination of the pass-1 rewriter. -/
theorem cons_dropWhile_length (p : Char → Bool) {l : List Char} {b : Char}
    {rest3 : List Char} (h : l.dropWhile p = b :: rest3) :
    rest3.length < l.length := by
  have h1 := dropWhile_length_le p l
  rw [h] at h1
  simp only [List.length_cons] at h1
  omega

/-- Pass 1 of the repair pipeline: the substitution
`re.sub(",(\s*[}\]])", "\1", s)`, which deletes a comma that is
followed, possibly after whitespace, by a closing brace or bracket.
Scanning resumes after the matched closer, as `re.sub` does. -/
def removeTrailingCommasF : Nat → List Char → List Char
  | 0, l => l
  | _ + 1, [] => []
  | fuel + 1, c :: rest =>
    if c = ',' then
      match rest.dropWhile pyIsSpace with
      | b :: rest3 =>
        if b = '}' ∨ b = ']' then
          rest.takeWhile pyIsSpace ++ b :: removeTrailingCommasF fuel rest3
        else ',' :: removeTrailingCommasF fuel rest
      | [] => ',' :: removeTrailingCommasF fuel rest
    else c :: removeTrailingCommasF fuel rest

/-- Entry point of pass 1 with enough fuel for the whole text. -/
def removeTrailingCommas (l : List Char) : List Char :=
  removeTrailingCommasF (l.length + 1) l

/-- Pass 2 of the repair pipeline: count opening and closing braces and
brackets over the whole text (string literals included, as the source
does) and append the missing closers, braces first. -/
def appendClosers (l : List Char) : List Char :=
  let ob := l.count '{'
  let cb := l.count '}'
  let obk := l.count '['
  let cbk := l.count ']'
  l ++ List.replicate (ob - cb) '}' ++ List.replicate (obk - cbk) ']'

/-- State of the character scan in pass 3: bracket and brace depth,
string-literal and escape flags, the index of the last position where
both depths were zero, and the current index. -/
structure ScanState : Type where
  bracket : Int
  brace : Int
  inStr : Bool
  esc : Bool
  last : Int
  idx : Nat
deriving Repr

/-- One step of the pass-3 scan, a direct translation of the loop body:
escape and quote handling first, then depth bookkeeping, then the
balanced-position check (skipped for string, quote and escape
characters by the `continue` statements of the source). -/
def scanStep (s : ScanState) (c : Char) : ScanState :=
  if s.esc then { s with esc := false, idx := s.idx + 1 }
  else if c = '\\' then { s with esc := true, idx := s.idx + 1 }
  else if c = '"' then { s with inStr := !s.inStr, idx := s.idx + 1 }
  else if s.inStr then { s with idx := s.idx + 1 }
  else
    let bk : Int := if c = '[' then s.bracket + 1
      else if c = ']' then s.bracket - 1 else s.bracket
    let br : Int := if c = '{' then s.brace + 1
      else if c = '}' then s.brace - 1 else s.brace
    let lc : Int := if bk = 0 ∧ br = 0 ∧ 0 < s.idx then (s.idx : Int) else s.last
    { bracket := bk, brace := br, inStr := s.inStr, esc := s.esc,
      last := lc, idx := s.idx + 1 }

/-- Initial state of the pass-3 scan (`last_complete = -1`). -/
def scanInit : ScanState := ⟨0, 0, false, false, -1, 0⟩

/-- Run the pass-3 scan over a text. -/
def runScan (l : List Char) : ScanState := l.foldl scanStep scanInit

/-- Pass 3 of the repair pipeline: truncate to the last balanced position
when that position is positive and strictly before the final index. -/
def truncateToBalanced (l : List Char) : List Char :=
  let st := runScan l
  if 0 < st.last ∧ st.last < (l.length : Int) - 1 then
    l.take (st.last.toNat + 1)
  else l

/-- Pass 4 of the repair pipeline: the substitution
`re.sub("[^}\]]*$", "", s)`, whose effect is to delete the maximal
trailing run of characters that are neither a closing brace nor a
closing bracket. -/
def dropTrailingGarbage (l : List Char) : List Char :=
  (l.reverse.dropWhile (fun c => !(c = '}' || c = ']'))).reverse

/-- The whole `_clean_json_for_wsd` pipeline on character lists. -/
def cleanJsonForWsdL (l : List Char) : List Char :=
  dropTrailingGarbage (truncateToBalanced (appendClosers (removeTrailingCommas l)))

/-- Model of `OllamaService._clean_json_for_wsd`. -/
def cleanJsonForWsd (s : String) : String :=
  String.mk (cleanJsonForWsdL s.data)

/-!
Python string helpers shared by both service models.
-/

/-- Test whether `sep` is a prefix of `l`. -/
def startsWith : List Char → List Char → Bool
  | [], _ => true
  | p :: ps, l =>
    match l with
    | [] => false
    | c :: cs => p = c && startsWith ps cs

/-- Index of the first occurrence of the substring `sep` in `l`,
mirroring `str.find` for substrings. -/
def findSubIdx (sep : List Char) : List Char → Option Nat
  | [] => if sep = [] then some 0 else none
  | c :: rest =>
    if startsWith sep (c :: rest) then some 0
    else (findSubIdx sep rest).map (· + 1)

/-- Substring containment, mirroring the Python `in` operator. -/
def containsSub (sep l : List Char) : Bool :=
  (findSubIdx sep l).isSome

/-- Text after the first occurrence of `sep`, when present. -/
def afterFirst (sep l : List Char) : Option (List Char) :=
  (findSubIdx sep l).map (fun i => l.drop (i + sep.length))

/-- Text before the first occurrence of `sep`; whole text when absent. -/
def beforeFirst (sep l : List Char) : List Char :=
  match findSubIdx sep l with
  | some i => l.take i
  | none => l

/-- Python `str.strip()`: remove leading and trailing whitespace. -/
def pyStrip (l : List Char) : List Char :=
  ((l.dropWhile pyIsSpace).reverse.dropWhile pyIsSpace).reverse

/-- Python `str.replace(sep, "")` for a nonempty separator: delete every
leftmost non-overlapping occurrence of `sep`. -/
def removeAllSubF (sep : List Char) : Nat → List Char → List Char
  | 0, l => l
  | _ + 1, [] => []
  | fuel + 1, c :: rest =>
    if sep ≠ [] ∧ startsWith sep (c :: rest) then
      removeAllSubF sep fuel ((c :: rest).drop sep.length)
    else c :: removeAllSubF sep fuel rest

/-- Entry point of the replace-all helper with enough fuel. -/
def removeAllSub (sep l : List Char) : List Char :=
  removeAllSubF sep (l.length + 1) l

/-- ASCII lowercase conversion, mirroring `str.lower()` on the ASCII
inputs this repository uses. -/
def pyLowerChar (c : Char) : Char :=
  if 'A' ≤ c ∧ c ≤ 'Z' then Char.ofNat (c.toNat + 32) else c

/-- Python `str.lower()`. -/
def pyLower (s : String) : String := String.mk (s.data.map pyLowerChar)

/-- Python `float(value)` on a string: optional surrounding whitespace,
optional sign, digits with an optional single decimal point (at least
one digit overall).  Exotic inputs (exponents, inf, nan) do not occur in
this development and are rejected. -/
def parsePyFloat (s : String) : Option ℚ :=
  let l := pyStrip s.data
  let sign : Bool × List Char := match l with
    | '-' :: r => (true, r)
    | '+' :: r => (false, r)
    | _ => (false, l)
  let ds := sign.2.takeWhile Char.isDigit
  let l2 := sign.2.dropWhile Char.isDigit
  let core : Option ℚ :=
    match l2 with
    | '.' :: l3 =>
      let fs := l3.takeWhile Char.isDigit
      let l4 := l3.dropWhile Char.isDigit
      if l4 = [] ∧ ¬(ds = [] ∧ fs = []) then
        some ((digitsVal ds : ℚ) + (digitsVal fs : ℚ) / ((10 : ℚ) ^ fs.length))
      else none
    | [] => if ds = [] then none else some (digitsVal ds : ℚ)
    | _ => none
  core.map (fun v => if sign.1 then -v else v)

/-- Python `float(x)` applied to a decoded JSON value: numbers pass
through, booleans coerce to 0 or 1, numeric strings are parsed, and
anything else raises (modelled as `none`). -/
def pyFloat : Json → Option ℚ
  | Json.jnum q => some q
  | Json.jbool b => some (if b then 1 else 0)
  | Json.jstr s => parsePyFloat s
  | _ => none

/-!
Model of `GeminiWSDService` (gemini_wsd_service.py).
-/

/-- Word sense record, from the `WordSense` dataclass. -/
structure WordSense : Type where
  sense_id : String
  definition : String
deriving DecidableEq, Repr

/-- One entry of the list built by `_parse_response`: the four keys the
source writes into each output dictionary.  Values keep their decoded
JSON shape except the confidence, which `float(...)` has coerced. -/
structure ROut : Type where
  rsense_id : Json
  rdefinition : Json
  rconfidence : ℚ
  rreasoning : Json

/-- Sequential option-valued map: the whole result is `none` as soon as
one element fails, as a Python loop aborted by an exception. -/
def mapOpt {a b : Type} (f : a → Option b) : List a → Option (List b)
  | [] => some []
  | x :: l =>
    match f x with
    | none => none
    | some y => (mapOpt f l).map (y :: ·)

/-- Equality test of a decoded JSON value against a Python string, as in
`sense.sense_id == sense_id`: true only for an equal JSON string. -/
def jsonEqStr (j : Json) (s : String) : Bool :=
  match j with
  | Json.jstr t => t = s
  | _ => false

/-- Code-fence stripping of `_parse_response`:
`text.strip()` then `.replace("```json", "").replace("```", "").strip()`. -/
def geminiStripText (l : List Char) : List Char :=
  pyStrip (removeAllSub ('`' :: '`' :: '`' :: [])
    (removeAllSub ('`' :: '`' :: '`' :: 'j' :: 's' :: 'o' :: 'n' :: [])
      (pyStrip l)))

/-- Extraction of the results array from the decoded payload:
`data.get("results", data.get("rankings", []))`, followed by the
falsy-check `if not results: return None`.  A payload that is not an
object makes the `.get` call raise, and a truthy non-array result value
fails during iteration or field access; both are caught by the
surrounding `except` and therefore also give `none`. -/
def getResults (data : Json) : Option (List Json) :=
  match data with
  | Json.jobj fs =>
    match (pyGet fs "results").getD ((pyGet fs "rankings").getD (Json.jarr [])) with
    | Json.jarr (x :: xs) => some (x :: xs)
    | _ => none
  | _ => none

/-- Field coercion of one results entry, from the loop body of
`_parse_response`: alias lookup for the id, first-match candidate lookup
for the definition with catalog precedence, `float` coercion of the
score, alias lookup for the reasoning.  A non-object entry raises on
`.get` (hence `none`), and a failing `float` raises too. -/
def coerceEntry (senses : List WordSense) (r : Json) : Option ROut :=
  match r with
  | Json.jobj fs =>
    let sid := (pyGet fs "id").getD ((pyGet fs "sense_id").getD (Json.jstr ""))
    let found := senses.find? (fun s => jsonEqStr sid s.sense_id)
    let defn : String := match found with
      | some s => s.definition
      | none => ""
    match pyFloat ((pyGet fs "score").getD ((pyGet fs "confidence").getD (Json.jnum 0))) with
    | none => none
    | some q =>
      some { rsense_id := sid
             rdefinition := if defn ≠ "" then Json.jstr defn
               else (pyGet fs "definition").getD (Json.jstr "")
             rconfidence := q
             rreasoning := (pyGet fs "reason").getD ((pyGet fs "reasoning").getD (Json.jstr "")) }
  | _ => none

/-- Confidence renormalization of `_parse_response`: when the sum of the
coerced confidences is positive, every confidence is scaled by
`100 / total`; otherwise the list is returned as built. -/
def renormalize (out : List ROut) : List ROut :=
  let total := (out.map ROut.rconfidence).sum
  if 0 < total then
    out.map (fun r => { r with rconfidence := r.rconfidence / total * 100 })
  else out

/-- The coercion stage of `GeminiWSDService._parse_response`: fence
stripping, `json.loads`, results extraction and per-entry coercion,
before renormalization. -/
def geminiParseResponseRaw (text : String) (senses : List WordSense) :
    Option (List ROut) :=
  match jsonParse (String.mk (geminiStripText text.data)) with
  | none => none
  | some data =>
    match getResults data with
    | none => none
    | some results => mapOpt (coerceEntry senses) results

/-- Model of `GeminiWSDService._parse_response`. -/
def geminiParseResponse (text : String) (senses : List WordSense) :
    Option (List ROut) :=
  (geminiParseResponseRaw text senses).map renormalize

/-- Model of `GeminiWSDService._get_fallback_result`: uniform confidence
`100 / n` over the `n` candidates (0 when there are none), candidate
order preserved, fixed reasoning text. -/
def geminiFallback (senses : List WordSense) : List ROut :=
  let n := senses.length
  let confidence : ℚ := if 0 < n then 100 / (n : ℚ) else 0
  senses.map (fun s =>
    { rsense_id := Json.jstr s.sense_id
      rdefinition := Json.jstr s.definition
      rconfidence := confidence
      rreasoning := Json.jstr "Unable to get AI analysis" })

/-- Outcome of the Gemini gateway call, enumerating the guard branches
of `disambiguate`: an exception from the API, an empty candidates
envelope, a finish reason other than 1, a failing `response.text`
accessor, or a raw response text. -/
inductive GeminiOutcome : Type where
  | apiError : GeminiOutcome
  | emptyResponse : GeminiOutcome
  | notFinished : GeminiOutcome
  | textError : GeminiOutcome
  | text : String → GeminiOutcome

/-- Model of `GeminiWSDService.disambiguate`: every failure branch
resolves to the fallback, and a parse result that is `None` or empty
does too. -/
def geminiDisambiguate (resp : GeminiOutcome) (senses : List WordSense) :
    List ROut :=
  match resp with
  | GeminiOutcome.text s =>
    match geminiParseResponse s senses with
    | some l => if l.isEmpty then geminiFallback senses else l
    | none => geminiFallback senses
  | _ => geminiFallback senses

/-!
Model of the sense-catalog mock fallbacks (C9): `_get_mock_senses` in
gemini_wsd_service.py and in streamlit_app.py.
-/

/-- Model of `Neo4jConnection._get_mock_senses` (gemini_wsd_service.py):
a fixed table for four words, and two synthetic senses for any other
word. -/
def geminiGetMockSenses (word : String) : List WordSense :=
  if pyLower word = "makan" then
    [⟨"makan_1", "to eat food"⟩, ⟨"makan_2", "to consume resources"⟩,
     ⟨"makan_3", "to corrode or erode"⟩]
  else if pyLower word = "main" then
    [⟨"main_1", "to play"⟩, ⟨"main_2", "to perform or act"⟩,
     ⟨"main_3", "to play musical instrument"⟩]
  else if pyLower word = "buah" then
    [⟨"buah_1", "fruit"⟩, ⟨"buah_2", "classifier for large objects"⟩]
  else if pyLower word = "kena" then
    [⟨"kena_1", "must or have to"⟩, ⟨"kena_2", "to be affected by"⟩,
     ⟨"kena_3", "to hit or strike"⟩]
  else
    [⟨word ++ "_1", "meaning 1 of " ++ word⟩, ⟨word ++ "_2", "meaning 2 of " ++ word⟩]

/-- Model of `Neo4jDatabase._get_mock_senses` (streamlit_app.py): a fixed
table for three words, and `mock_data.get(word.lower(), [])` otherwise,
which is the empty list. -/
def streamlitGetMockSenses (word : String) : List WordSense :=
  if pyLower word = "makan" then
    [⟨"makan_1", "to eat food"⟩, ⟨"makan_2", "to consume resources"⟩,
     ⟨"makan_3", "to corrode or erode"⟩]
  else if pyLower word = "main" then
    [⟨"main_1", "to play (games)"⟩, ⟨"main_2", "to perform or act"⟩,
     ⟨"main_3", "to play (musical instrument)"⟩]
  else if pyLower word = "buah" then
    [⟨"buah_1", "fruit"⟩, ⟨"buah_2", "classifier for large objects"⟩]
  else []

/-!
Model of `OllamaService` (ollama_service.py): markdown-fence stripping,
payload extraction, result validation and sorting for `disambiguate`,
the inline cleanup pipeline of `query_word`, and the retry loop.
-/

/-- Length bound for startsWith, used in termination arguments. -/
theorem startsWith_le_length (sep l : List Char) (h : startsWith sep l = true) :
    sep.length ≤ l.length := by
  induction sep generalizing l with
  | nil => simp
  | cons a as ih =>
    cases l with
    | nil => simp [startsWith] at h
    | cons b bs =>
      simp only [startsWith, Bool.and_eq_true] at h
      have := ih bs h.2
      simp only [List.length_cons]
      omega

/-- Length bound for two nested dropWhile applications. -/
theorem dropWhile2_length_le (p q : Char → Bool) (l : List Char) :
    ((l.dropWhile p).dropWhile q).length ≤ l.length :=
  le_trans (dropWhile_length_le q _) (dropWhile_length_le p l)

/-- Strict length bound from a cons-shaped double dropWhile. -/
theorem cons_dropWhile2_length (p q : Char → Bool) {l : List Char} {b : Char}
    {rest : List Char} (h : (l.dropWhile p).dropWhile q = b :: rest) :
    rest.length < l.length :=
  lt_of_lt_of_le (cons_dropWhile_length q h) (dropWhile_length_le p l)

/-- Strict length bound after a positive drop followed by two dropWhile
applications, used for termination of the step-1 rewriter. -/
theorem drop_pos_dw2_lt (p q : Char → Bool) (n : Nat) (x : Char) (l : List Char)
    (hn : 0 < n) :
    ((((x :: l).drop n).dropWhile p).dropWhile q).length < (x :: l).length := by
  have h1 := dropWhile2_length_le p q ((x :: l).drop n)
  simp only [List.length_drop, List.length_cons] at *
  omega

/-- Strict length bound for a dropWhile inside a drop inside a dropWhile,
used for termination of the step-3 rewriter. -/
theorem dw_drop_dw_le (p q : Char → Bool) (n : Nat) (l : List Char) :
    (((l.dropWhile p).drop n).dropWhile q).length ≤ l.length := by
  have h1 := dropWhile_length_le q ((l.dropWhile p).drop n)
  have h2 := dropWhile_length_le p l
  simp only [List.length_drop] at *
  omega

/-- Index of the first occurrence of a character, mirroring `str.find`. -/
def findCharIdx (c : Char) (l : List Char) : Option Nat :=
  l.findIdx? (· = c)

/-- Index of the last occurrence of a character, mirroring `str.rfind`. -/
def rfindCharIdx (c : Char) (l : List Char) : Option Nat :=
  (l.reverse.findIdx? (· = c)).map (fun i => l.length - 1 - i)

/-- Markdown-fence stripping shared by `query_word` and `disambiguate`:
when a fenced block marker is present, keep the text between the first
marker and the following fence, stripped.  The nested `split` calls of
the source reduce to before-first and after-first extraction because
every later occurrence of the long marker begins with the short one. -/
def stripMarkdownFences (l : List Char) : List Char :=
  let fj : List Char := '`' :: '`' :: '`' :: 'j' :: 's' :: 'o' :: 'n' :: []
  let f : List Char := '`' :: '`' :: '`' :: []
  if containsSub fj l then
    pyStrip (beforeFirst f ((afterFirst fj l).getD []))
  else if containsSub f l then
    pyStrip (beforeFirst f ((afterFirst f l).getD []))
  else l

/-- Extraction step of `disambiguate`: strip, strip fences, then slice
from the first opening bracket to the last closing bracket; `none` when
either bracket is absent. -/
def ollamaExtractArr (resp : List Char) : Option (List Char) :=
  let t := stripMarkdownFences (pyStrip resp)
  match findCharIdx '[' t, rfindCharIdx ']' t with
  | some s, some e => some ((t.drop s).take (e + 1 - s))
  | _, _ => none

/-- Outcome of the validation loop body of `disambiguate` for a single
parsed entry. -/
inductive VStep : Type where
  | keep : Json → VStep
  | drop : VStep
  | exc : VStep

/-- Validation of one parsed entry, from the loop of `disambiguate`.  A
dictionary entry is kept when it carries both required keys, with the
default definition and reasoning filled in; otherwise it is dropped.  On
a string entry the `in` test is a substring test and a passing entry
later raises at field assignment or at sort; on a list the test is
membership with the same consequence; on any other value `in` raises
directly.  All raising paths are summarised as `exc`, which the caller
turns into the fallback. -/
def validateEntry (r : Json) : VStep :=
  match r with
  | Json.jobj fs =>
    if hasKey fs "sense_id" && hasKey fs "confidence" then
      let fs1 := if hasKey fs "definition" then fs
        else fs ++ [("definition", Json.jstr "No definition provided")]
      let fs2 := if hasKey fs1 "reasoning" then fs1
        else fs1 ++ [("reasoning", Json.jstr "No reasoning provided")]
      VStep.keep (Json.jobj fs2)
    else VStep.drop
  | Json.jstr s =>
    if containsSub "sense_id".data s.data && containsSub "confidence".data s.data
    then VStep.exc else VStep.drop
  | Json.jarr l =>
    if (l.any (fun e => jsonEqStr e "sense_id")) &&
        (l.any (fun e => jsonEqStr e "confidence"))
    then VStep.exc else VStep.drop
  | _ => VStep.exc

/-- Validation of the whole parsed result list; `none` when any entry
raises, otherwise the kept entries in their original order. -/
def validateResults : List Json → Option (List Json)
  | [] => some []
  | r :: rest =>
    match validateEntry r with
    | VStep.exc => none
    | VStep.drop => validateResults rest
    | VStep.keep v => (validateResults rest).map (v :: ·)

/-- Numeric sort key of a kept entry: the confidence value when it is a
number (booleans compare as integers in Python). -/
def numKey (j : Json) : Option ℚ :=
  match j with
  | Json.jobj fs =>
    match pyGet fs "confidence" with
    | some (Json.jnum q) => some q
    | some (Json.jbool b) => some (if b then 1 else 0)
    | _ => none
  | _ => none

/-- String sort key of a kept entry, for the case where every confidence
is a string and Python compares them lexicographically. -/
def strKey (j : Json) : Option String :=
  match j with
  | Json.jobj fs =>
    match pyGet fs "confidence" with
    | some (Json.jstr s) => some s
    | _ => none
  | _ => none

/-- Stable descending insertion for rational keys. -/
def insertDescQ (e : Json × ℚ) : List (Json × ℚ) → List (Json × ℚ)
  | [] => [e]
  | x :: xs => if e.2 < x.2 then x :: insertDescQ e xs else e :: x :: xs

/-- Stable descending insertion for string keys. -/
def insertDescS (e : Json × String) : List (Json × String) → List (Json × String)
  | [] => [e]
  | x :: xs => if e.2 < x.2 then x :: insertDescS e xs else e :: x :: xs

/-- Model of `valid_results.sort(key=..., reverse=True)`: a list of at
most one element is never compared; otherwise all-numeric keys sort
numerically and all-string keys lexicographically (stable, descending),
and mixed or incomparable keys raise, modelled as `none`. -/
def sortKept (kept : List Json) : Option (List Json) :=
  if kept.length ≤ 1 then some kept
  else
    match mapOpt numKey kept with
    | some ks => some (((kept.zip ks).foldr insertDescQ []).map Prod.fst)
    | none =>
      match mapOpt strKey kept with
      | some ks => some (((kept.zip ks).foldr insertDescS []).map Prod.fst)
      | none => none

/-- Model of `OllamaService._default_ranking`: one output dictionary per
candidate, in order, with fixed confidence 50.0. -/
def ollamaDefaultRanking (senses : List WordSense) : List Json :=
  senses.map (fun s => Json.jobj
    [("sense_id", Json.jstr s.sense_id),
     ("definition", Json.jstr s.definition),
     ("confidence", Json.jnum 50),
     ("reasoning", Json.jstr "Default ranking (API unavailable)")])

/-- Model of `OllamaService.disambiguate` as a function of the raw
gateway response (`none` for a failed `_generate` call): every failure
path resolves to the default ranking.  A successful parse of the
extracted slice always yields an array because the slice begins with an
opening bracket, so the non-array case is collapsed into the failing
parse branch. -/
def ollamaDisambiguate (resp : Option String) (senses : List WordSense) :
    List Json :=
  match resp with
  | none => ollamaDefaultRanking senses
  | some s =>
    if s.data = [] then ollamaDefaultRanking senses
    else
      match ollamaExtractArr s.data with
      | none => ollamaDefaultRanking senses
      | some slice =>
        match jsonParse (String.mk (cleanJsonForWsdL slice)) with
        | some (Json.jarr items) =>
          match validateResults items with
          | none => ollamaDefaultRanking senses
          | some kept =>
            match sortKept kept with
            | none => ollamaDefaultRanking senses
            | some sorted =>
              if sorted.isEmpty then ollamaDefaultRanking senses else sorted
        | _ => ollamaDefaultRanking senses

/-- Instrumented `disambiguate`: the result together with the number of
`_generate` invocations, which is one on every path since the source
calls the gateway exactly once and never retries. -/
def ollamaDisambiguateRun (env : Nat → Option String) (senses : List WordSense) :
    List Json × Nat :=
  (ollamaDisambiguate (env 0) senses, 1)

/-!
The inline cleanup pipeline of `query_word` (ollama_service.py, lines
131-164), one definition per substitution, in source order.
-/

/-- Step 1: `re.sub("\"index\":\s*(\d+)", "\"index\": \"\1\"", s)` —
quote a bare numeric `index` field. -/
def fixIndexQuotedF : Nat → List Char → List Char
  | 0, l => l
  | _ + 1, [] => []
  | fuel + 1, c :: rest =>
    if startsWith "\"index\":".data (c :: rest) then
      let after := (c :: rest).drop 8
      let ds := (after.dropWhile pyIsSpace).takeWhile Char.isDigit
      if ds = [] then
        c :: fixIndexQuotedF fuel rest
      else
        "\"index\": \"".data ++ ds ++
          '"' :: fixIndexQuotedF fuel ((after.dropWhile pyIsSpace).dropWhile Char.isDigit)
    else c :: fixIndexQuotedF fuel rest

/-- Entry point of step 1 with enough fuel. -/
def fixIndexQuoted (l : List Char) : List Char :=
  fixIndexQuotedF (l.length + 1) l

/-- Step 2: `re.sub("(...)", "", s)` — delete every parenthetical
span; an opening parenthesis with no later closer stays. -/
def removeParensF : Nat → List Char → List Char
  | 0, l => l
  | _ + 1, [] => []
  | fuel + 1, c :: rest =>
    if c = '(' then
      match rest.findIdx? (· = ')') with
      | some i => removeParensF fuel (rest.drop (i + 1))
      | none => '(' :: removeParensF fuel rest
    else c :: removeParensF fuel rest

/-- Entry point of step 2 with enough fuel. -/
def removeParens (l : List Char) : List Char :=
  removeParensF (l.length + 1) l

/-- Step 3: `re.sub("\"\s*//[^\n]*", "\"", s)` — drop an inline comment
after a closing quote, up to the end of the line. -/
def stripInlineCommentsF : Nat → List Char → List Char
  | 0, l => l
  | _ + 1, [] => []
  | fuel + 1, c :: rest =>
    if c = '"' then
      let ws := rest.dropWhile pyIsSpace
      if startsWith ('/' :: '/' :: []) ws then
        '"' :: stripInlineCommentsF fuel ((ws.drop 2).dropWhile (fun x => !(x = '\n')))
      else '"' :: stripInlineCommentsF fuel rest
    else c :: stripInlineCommentsF fuel rest

/-- Entry point of step 3 with enough fuel. -/
def stripInlineComments (l : List Char) : List Char :=
  stripInlineCommentsF (l.length + 1) l

/-- Step 4: `re.sub(";+\s*\"", "\"", s)` — drop stray semicolons before
a closing quote. -/
def fixSemicolonsF : Nat → List Char → List Char
  | 0, l => l
  | _ + 1, [] => []
  | fuel + 1, c :: rest =>
    if c = ';' then
      match (rest.dropWhile (fun x => x = ';')).dropWhile pyIsSpace with
      | '"' :: rest2 => '"' :: fixSemicolonsF fuel rest2
      | _ => ';' :: fixSemicolonsF fuel rest
    else c :: fixSemicolonsF fuel rest

/-- Entry point of step 4 with enough fuel. -/
def fixSemicolons (l : List Char) : List Char :=
  fixSemicolonsF (l.length + 1) l

/-- Step 5: `re.sub("\.+\s*\"(\s*[,}\]])", "\"\1", s)` — drop trailing
periods before a closing quote that is followed by a structural
character. -/
def fixTrailingPeriodsF : Nat → List Char → List Char
  | 0, l => l
  | _ + 1, [] => []
  | fuel + 1, c :: rest =>
    if c = '.' then
      match (rest.dropWhile (fun x => x = '.')).dropWhile pyIsSpace with
      | '"' :: rest2 =>
        match rest2.dropWhile pyIsSpace with
        | d :: rest3 =>
          if d = ',' ∨ d = '}' ∨ d = ']' then
            '"' :: rest2.takeWhile pyIsSpace ++ d :: fixTrailingPeriodsF fuel rest3
          else '.' :: fixTrailingPeriodsF fuel rest
        | [] => '.' :: fixTrailingPeriodsF fuel rest
      | _ => '.' :: fixTrailingPeriodsF fuel rest
    else c :: fixTrailingPeriodsF fuel rest

/-- Entry point of step 5 with enough fuel. -/
def fixTrailingPeriods (l : List Char) : List Char :=
  fixTrailingPeriodsF (l.length + 1) l

/-- Step 6, first half: `re.sub("\"\s+", "\"", s)` — drop whitespace
directly after a quote. -/
def dropWsAfterQuoteF : Nat → List Char → List Char
  | 0, l => l
  | _ + 1, [] => []
  | fuel + 1, '"' :: w :: rest =>
    if pyIsSpace w then '"' :: dropWsAfterQuoteF fuel ((w :: rest).dropWhile pyIsSpace)
    else '"' :: dropWsAfterQuoteF fuel (w :: rest)
  | fuel + 1, c :: rest => c :: dropWsAfterQuoteF fuel rest

/-- Entry point of the first half of step 6 with enough fuel. -/
def dropWsAfterQuote (l : List Char) : List Char :=
  dropWsAfterQuoteF (l.length + 1) l

/-- Step 6, second half: `re.sub("\s+\"", "\"", s)` — drop whitespace
directly before a quote. -/
def dropWsBeforeQuoteF : Nat → List Char → List Char
  | 0, l => l
  | _ + 1, [] => []
  | fuel + 1, c :: rest =>
    if pyIsSpace c then
      match rest.dropWhile pyIsSpace with
      | '"' :: rest2 => '"' :: dropWsBeforeQuoteF fuel rest2
      | _ => c :: dropWsBeforeQuoteF fuel rest
    else c :: dropWsBeforeQuoteF fuel rest

/-- Entry point of the second half of step 6 with enough fuel. -/
def dropWsBeforeQuote (l : List Char) : List Char :=
  dropWsBeforeQuoteF (l.length + 1) l

/-- Step 8: `re.sub(",\s*,+", ",", s)` — collapse repeated commas. -/
def collapseCommasF : Nat → List Char → List Char
  | 0, l => l
  | _ + 1, [] => []
  | fuel + 1, c :: rest =>
    if c = ',' then
      match rest.dropWhile pyIsSpace with
      | ',' :: _ =>
        ',' :: collapseCommasF fuel ((rest.dropWhile pyIsSpace).dropWhile (fun x => x = ','))
      | _ => ',' :: collapseCommasF fuel rest
    else c :: collapseCommasF fuel rest

/-- Entry point of step 8 with enough fuel. -/
def collapseCommas (l : List Char) : List Char :=
  collapseCommasF (l.length + 1) l

/-- Step 9: `re.sub("}\s*{", "},{", s)` — insert the missing comma
between adjacent objects. -/
def insertObjCommasF : Nat → List Char → List Char
  | 0, l => l
  | _ + 1, [] => []
  | fuel + 1, c :: rest =>
    if c = '}' then
      match rest.dropWhile pyIsSpace with
      | '{' :: rest2 => '}' :: ',' :: '{' :: insertObjCommasF fuel rest2
      | _ => '}' :: insertObjCommasF fuel rest
    else c :: insertObjCommasF fuel rest

/-- Entry point of step 9 with enough fuel. -/
def insertObjCommas (l : List Char) : List Char :=
  insertObjCommasF (l.length + 1) l

/-- Words of a text for Python `str.split()` with no separator:
maximal runs of non-whitespace characters. -/
def splitWordsF : Nat → List Char → List (List Char)
  | 0, _ => []
  | _ + 1, [] => []
  | fuel + 1, c :: rest =>
    if pyIsSpace c then splitWordsF fuel rest
    else ((c :: rest).takeWhile (fun x => !pyIsSpace x)) ::
      splitWordsF fuel (rest.dropWhile (fun x => !pyIsSpace x))

/-- Entry point of the word splitter with enough fuel. -/
def splitWords (l : List Char) : List (List Char) :=
  splitWordsF (l.length + 1) l

/-- Step 10: `" ".join(s.split())` — split on whitespace runs and rejoin
with single spaces. -/
def joinWords (l : List Char) : List Char :=
  List.intercalate [' '] (splitWords l)

/-- The whole inline cleanup pipeline of `query_word`, steps 1 to 10 in
source order (step 7 is the shared trailing-comma substitution). -/
def cleanJsonForQuery (l : List Char) : List Char :=
  joinWords (insertObjCommas (collapseCommas (removeTrailingCommas
    (dropWsBeforeQuote (dropWsAfterQuote (fixTrailingPeriods (fixSemicolons
      (stripInlineComments (removeParens (fixIndexQuoted l))))))))))

/-- Outcome of one attempt of the `query_word` loop body. -/
inductive AttemptResult : Type where
  | ok : Json → AttemptResult
  | noResp : AttemptResult
  | noJson : AttemptResult
  | decodeErr : AttemptResult

/-- One attempt of `query_word`: a falsy response is reported, otherwise
the text is stripped, fences are removed, the outermost braces are
located, the slice is cleaned and parsed.  Every exception path of the
source is represented by its result value. -/
def ollamaQueryAttempt (resp : Option String) : AttemptResult :=
  match resp with
  | none => AttemptResult.noResp
  | some s =>
    if s.data = [] then AttemptResult.noResp
    else
      let t := stripMarkdownFences (pyStrip s.data)
      match findCharIdx '{' t, rfindCharIdx '}' t with
      | some i, some j =>
        match jsonParse (String.mk (cleanJsonForQuery ((t.drop i).take (j + 1 - i)))) with
        | some v => AttemptResult.ok v
        | none => AttemptResult.decodeErr
      | _, _ => AttemptResult.noJson

/-- Result of `query_word`: a parsed payload or an error record
(a dictionary with a single `error` key in the source). -/
inductive QueryResult : Type where
  | parsed : Json → QueryResult
  | error : String → QueryResult

/-- Model of `OllamaService.query_word` over an environment giving the
gateway response of each attempt, instrumented with the number of
`_generate` invocations.  The loop runs at most two attempts: every
failure of the first attempt falls through to the second, and the
second attempt maps each failure kind to its error record. -/
def ollamaQueryWord (env : Nat → Option String) : QueryResult × Nat :=
  match ollamaQueryAttempt (env 0) with
  | AttemptResult.ok v => (QueryResult.parsed v, 1)
  | _ =>
    match ollamaQueryAttempt (env 1) with
    | AttemptResult.ok v => (QueryResult.parsed v, 2)
    | AttemptResult.noResp => (QueryResult.error "No response from Ollama service", 2)
    | AttemptResult.noJson => (QueryResult.error "Invalid response format from Ollama", 2)
    | AttemptResult.decodeErr => (QueryResult.error "Failed to parse Ollama response", 2)

/-!
Theorems settling the claims.
-/

/-- Case analysis on the head of a dropWhile result. -/
theorem dropWhile_head_false (p : Char → Bool) (l : List Char) :
    l.dropWhile p = [] ∨ ∃ b t, l.dropWhile p = b :: t ∧ p b = false := by
  induction l with
  | nil => left; rfl
  | cons a l ih =>
    by_cases h : p a
    · simpa [List.dropWhile, h] using ih
    · right
      exact ⟨a, l, by simp [List.dropWhile, h], by simp [h]⟩

/-- C10: for every input string, the WSD JSON-cleaning function returns
a string that is either empty or ends with a closing brace or closing
bracket, because the final substitution deletes any trailing run of
other characters. -/
theorem c10_clean_ends_with_closer (s : String) :
    (cleanJsonForWsd s).data = [] ∨
    (cleanJsonForWsd s).data.getLast? = some '}' ∨
    (cleanJsonForWsd s).data.getLast? = some ']' := by
  show cleanJsonForWsdL s.data = [] ∨
    (cleanJsonForWsdL s.data).getLast? = some '}' ∨
    (cleanJsonForWsdL s.data).getLast? = some ']'
  unfold cleanJsonForWsdL dropTrailingGarbage
  rcases dropWhile_head_false (fun c => !(c = '}' || c = ']'))
      (truncateToBalanced (appendClosers (removeTrailingCommas s.data))).reverse with
    h | ⟨b, t, h, hb⟩
  · left
    rw [h]
    rfl
  · right
    rw [h, List.getLast?_reverse]
    simp only [Bool.not_eq_false', Bool.or_eq_true, decide_eq_true_eq] at hb
    rcases hb with hb | hb <;> simp [hb]

/-- C2 counterexample: the Ollama fallback ranking gives confidence 50
to the single candidate of a one-candidate call, while the claim demands
`100 / 1 = 100`. -/
theorem c2_counterexample :
    ollamaDefaultRanking [⟨"a", "defA"⟩] =
      [Json.jobj [("sense_id", Json.jstr "a"), ("definition", Json.jstr "defA"),
        ("confidence", Json.jnum 50),
        ("reasoning", Json.jstr "Default ranking (API unavailable)")]] ∧
    (50 : ℚ) ≠ 100 / 1 :=
  ⟨rfl, by norm_num⟩

/-- C2 amended: the Gemini fallback assigns `100 / N` to each of the `N`
candidates, in input order; the Ollama default ranking also preserves
length and order but assigns the fixed confidence 50 instead. -/
theorem c2_amended (senses : List WordSense) (i : Nat) (s : WordSense)
    (h : senses[i]? = some s) :
    ((geminiFallback senses).length = senses.length ∧
     (geminiFallback senses)[i]? = some
       { rsense_id := Json.jstr s.sense_id
         rdefinition := Json.jstr s.definition
         rconfidence := 100 / (senses.length : ℚ)
         rreasoning := Json.jstr "Unable to get AI analysis" }) ∧
    ((ollamaDefaultRanking senses).length = senses.length ∧
     (ollamaDefaultRanking senses)[i]? = some (Json.jobj
       [("sense_id", Json.jstr s.sense_id),
        ("definition", Json.jstr s.definition),
        ("confidence", Json.jnum 50),
        ("reasoning", Json.jstr "Default ranking (API unavailable)")])) := by
  have hpos : 0 < senses.length := by
    obtain ⟨hlt, -⟩ := List.getElem?_eq_some_iff.mp h
    omega
  refine ⟨⟨by simp [geminiFallback], ?_⟩, ⟨by simp [ollamaDefaultRanking], ?_⟩⟩
  · simp [geminiFallback, List.getElem?_map, h, hpos]
  · simp [ollamaDefaultRanking, List.getElem?_map, h]

/-- C2 witness: the amended statement evaluated on a one-candidate
list. -/
theorem c2_amended_witness :
    (geminiFallback [⟨"a", "defA"⟩])[0]? = some
      { rsense_id := Json.jstr "a", rdefinition := Json.jstr "defA"
        rconfidence := 100 / ((1 : Nat) : ℚ)
        rreasoning := Json.jstr "Unable to get AI analysis" } ∧
    (ollamaDefaultRanking [⟨"a", "defA"⟩])[0]? = some (Json.jobj
      [("sense_id", Json.jstr "a"), ("definition", Json.jstr "defA"),
       ("confidence", Json.jnum 50),
       ("reasoning", Json.jstr "Default ranking (API unavailable)")]) :=
  ⟨((c2_amended [⟨"a", "defA"⟩] 0 ⟨"a", "defA"⟩ rfl).1).2,
   ((c2_amended [⟨"a", "defA"⟩] 0 ⟨"a", "defA"⟩ rfl).2).2⟩

/-- C9 counterexample: the streamlit sense-catalog mock returns the
empty sequence for a word outside its fixed table, while the claim
demands a non-empty synthetic fallback. -/
theorem c9_counterexample : streamlitGetMockSenses "xyz" = [] := rfl

/-- C9 amended: the Gemini-service mock lookup never returns fewer than
two senses and serves two synthetic senses for unknown words, whereas
the streamlit mock lookup returns the empty list for every word outside
its three-word table. -/
theorem c9_amended :
    (∀ w : String, 2 ≤ (geminiGetMockSenses w).length) ∧
    (∀ w : String, pyLower w ≠ "makan" → pyLower w ≠ "main" →
      pyLower w ≠ "buah" → pyLower w ≠ "kena" →
      geminiGetMockSenses w =
        [⟨w ++ "_1", "meaning 1 of " ++ w⟩, ⟨w ++ "_2", "meaning 2 of " ++ w⟩] ∧
      streamlitGetMockSenses w = []) := by
  constructor
  · intro w
    unfold geminiGetMockSenses
    split
    · simp
    · split
      · simp
      · split
        · simp
        · split
          · simp
          · simp
  · intro w h1 h2 h3 h4
    constructor
    · unfold geminiGetMockSenses
      simp only [if_neg h1, if_neg h2, if_neg h3, if_neg h4]
    · unfold streamlitGetMockSenses
      simp only [if_neg h1, if_neg h2, if_neg h3]

/-- C9 witness: the amended statement evaluated at the word "xyz". -/
theorem c9_amended_witness :
    geminiGetMockSenses "xyz" =
      [⟨"xyz" ++ "_1", "meaning 1 of " ++ "xyz"⟩,
       ⟨"xyz" ++ "_2", "meaning 2 of " ++ "xyz"⟩] ∧
    streamlitGetMockSenses "xyz" = [] :=
  c9_amended.2 "xyz" (by decide) (by decide) (by decide) (by decide)

/-- Scaling distributes over a list sum. -/
theorem sum_map_scale (l : List ℚ) (T : ℚ) :
    (l.map (fun x => x / T * 100)).sum = l.sum / T * 100 := by
  induction l with
  | nil => simp
  | cons a l ih =>
    simp only [List.map_cons, List.sum_cons, ih]
    ring

/-- Stable descending insertion permutes. -/
theorem insertDescQ_perm (e : Json × ℚ) (l : List (Json × ℚ)) :
    (insertDescQ e l).Perm (e :: l) := by
  induction l with
  | nil => exact List.Perm.refl _
  | cons x xs ih =>
    unfold insertDescQ
    by_cases h : e.2 < x.2
    · rw [if_pos h]
      exact ((ih.cons x).trans (List.Perm.swap e x xs))
    · rw [if_neg h]

/-- Stable descending insertion permutes (string keys). -/
theorem insertDescS_perm (e : Json × String) (l : List (Json × String)) :
    (insertDescS e l).Perm (e :: l) := by
  induction l with
  | nil => exact List.Perm.refl _
  | cons x xs ih =>
    unfold insertDescS
    by_cases h : e.2 < x.2
    · rw [if_pos h]
      exact ((ih.cons x).trans (List.Perm.swap e x xs))
    · rw [if_neg h]

/-- Insertion sort permutes. -/
theorem foldr_insertDescQ_perm (l : List (Json × ℚ)) :
    (l.foldr insertDescQ []).Perm l := by
  induction l with
  | nil => exact List.Perm.refl _
  | cons e xs ih => exact (insertDescQ_perm e (xs.foldr insertDescQ [])).trans (ih.cons e)

/-- Insertion sort permutes (string keys). -/
theorem foldr_insertDescS_perm (l : List (Json × String)) :
    (l.foldr insertDescS []).Perm l := by
  induction l with
  | nil => exact List.Perm.refl _
  | cons e xs ih => exact (insertDescS_perm e (xs.foldr insertDescS [])).trans (ih.cons e)

/-- Length preservation of the option-valued map. -/
theorem mapOpt_length {a b : Type} (f : a → Option b) :
    ∀ (l : List a) (ks : List b), mapOpt f l = some ks → ks.length = l.length := by
  intro l
  induction l with
  | nil =>
    intro ks h
    simp only [mapOpt, Option.some.injEq] at h
    simp [← h]
  | cons x xs ih =>
    intro ks h
    simp only [mapOpt] at h
    cases hf : f x with
    | none => rw [hf] at h; cases h
    | some y =>
      rw [hf] at h
      cases hm : mapOpt f xs with
      | none => rw [hm] at h; cases h
      | some ys =>
        rw [hm] at h
        have hks : ks = y :: ys := by
          simpa using h.symm
        subst hks
        simp [ih ys hm]

set_option maxRecDepth 40000 in
/-- C1 counterexample: an Ollama `disambiguate` call whose raw parsed
confidences are 70 and 60 (sum 130 > 0) returns them unscaled, while
the claim demands the values `70 * 100 / 130` and `60 * 100 / 130`. -/
theorem c1_counterexample :
    ollamaDisambiguate
      (some "[\x7b\"sense_id\":\"a\",\"definition\":\"d\",\"confidence\":70,\"reasoning\":\"r\"\x7d,\x7b\"sense_id\":\"b\",\"definition\":\"e\",\"confidence\":60,\"reasoning\":\"s\"\x7d]")
      [⟨"a", "defA"⟩, ⟨"b", "defB"⟩] =
      [Json.jobj [("sense_id", Json.jstr "a"), ("definition", Json.jstr "d"),
        ("confidence", Json.jnum 70), ("reasoning", Json.jstr "r")],
       Json.jobj [("sense_id", Json.jstr "b"), ("definition", Json.jstr "e"),
        ("confidence", Json.jnum 60), ("reasoning", Json.jstr "s")]] ∧
    (70 : ℚ) ≠ 70 * (100 / 130) ∧ (0 : ℚ) < 70 + 60 :=
  ⟨rfl, by norm_num, by norm_num⟩

/-- C1 amended: the Gemini `_parse_response` renormalizes: whenever the
coerced confidences sum to a positive value every confidence is scaled
by `100 / sum`, so the returned confidences sum to exactly 100, and a
zero sum leaves the values as given; the Ollama `disambiguate` performs
no renormalization, its successful result being a permutation (by the
descending sort) of the validated entries with their parsed values. -/
theorem c1_amended :
    (∀ (text : String) (senses : List WordSense) (out : List ROut),
      geminiParseResponseRaw text senses = some out →
      (0 < (out.map ROut.rconfidence).sum →
        geminiParseResponse text senses = some (out.map (fun r =>
          { r with rconfidence :=
            r.rconfidence / (out.map ROut.rconfidence).sum * 100 })) ∧
        ((renormalize out).map ROut.rconfidence).sum = 100) ∧
      ((out.map ROut.rconfidence).sum = 0 →
        geminiParseResponse text senses = some out)) ∧
    (∀ kept sorted : List Json, sortKept kept = some sorted → sorted.Perm kept) := by
  constructor
  · intro text senses out hraw
    constructor
    · intro hpos
      have hren : renormalize out = out.map (fun r =>
          { r with rconfidence :=
            r.rconfidence / (out.map ROut.rconfidence).sum * 100 }) := by
        unfold renormalize
        rw [if_pos hpos]
      constructor
      · simp [geminiParseResponse, hraw, hren]
      · rw [hren]
        have hmaps : ((out.map (fun r =>
            { r with rconfidence :=
              r.rconfidence / (out.map ROut.rconfidence).sum * 100 })).map ROut.rconfidence) =
            (out.map ROut.rconfidence).map
              (fun x => x / (out.map ROut.rconfidence).sum * 100) := by
          simp [List.map_map]
        rw [hmaps, sum_map_scale, div_self (ne_of_gt hpos), one_mul]
    · intro hzero
      have hren : renormalize out = out := by
        unfold renormalize
        rw [if_neg (by rw [hzero]; exact lt_irrefl 0)]
      simp [geminiParseResponse, hraw, hren]
  · intro kept sorted h
    unfold sortKept at h
    by_cases hlen : kept.length ≤ 1
    · rw [if_pos hlen] at h
      cases h
      exact List.Perm.refl _
    · rw [if_neg hlen] at h
      cases hq : mapOpt numKey kept with
      | some ks =>
        rw [hq] at h
        cases h
        have hlq : ks.length = kept.length := mapOpt_length numKey kept ks hq
        have hperm := (foldr_insertDescQ_perm (kept.zip ks)).map Prod.fst
        rwa [List.map_fst_zip kept ks (le_of_eq hlq.symm)] at hperm
      | none =>
        rw [hq] at h
        cases hs : mapOpt strKey kept with
        | some ks =>
          rw [hs] at h
          cases h
          have hlq : ks.length = kept.length := mapOpt_length strKey kept ks hs
          have hperm := (foldr_insertDescS_perm (kept.zip ks)).map Prod.fst
          rwa [List.map_fst_zip kept ks (le_of_eq hlq.symm)] at hperm
        | none =>
          rw [hs] at h
          cases h

set_option maxRecDepth 40000 in
/-- C1 witness: the amended statement evaluated on a concrete Gemini
response with raw scores 60 and 140 (sum 200), whose renormalized
confidences are 30 and 70. -/
theorem c1_amended_witness :
    geminiParseResponseRaw
      "\x7b\"results\":[\x7b\"id\":\"a\",\"score\":60,\"reason\":\"x\"\x7d,\x7b\"id\":\"b\",\"score\":140,\"reason\":\"y\"\x7d]\x7d"
      [⟨"a", "defA"⟩, ⟨"b", "defB"⟩] = some
      [⟨Json.jstr "a", Json.jstr "defA", 60, Json.jstr "x"⟩,
       ⟨Json.jstr "b", Json.jstr "defB", 140, Json.jstr "y"⟩] ∧
    (0 : ℚ) < ((([⟨Json.jstr "a", Json.jstr "defA", 60, Json.jstr "x"⟩,
       ⟨Json.jstr "b", Json.jstr "defB", 140, Json.jstr "y"⟩] : List ROut)).map ROut.rconfidence).sum ∧
    ((renormalize [⟨Json.jstr "a", Json.jstr "defA", 60, Json.jstr "x"⟩,
       ⟨Json.jstr "b", Json.jstr "defB", 140, Json.jstr "y"⟩]).map ROut.rconfidence).sum = 100 := by
  have hraw : geminiParseResponseRaw
      "\x7b\"results\":[\x7b\"id\":\"a\",\"score\":60,\"reason\":\"x\"\x7d,\x7b\"id\":\"b\",\"score\":140,\"reason\":\"y\"\x7d]\x7d"
      [⟨"a", "defA"⟩, ⟨"b", "defB"⟩] = some
      [⟨Json.jstr "a", Json.jstr "defA", 60, Json.jstr "x"⟩,
       ⟨Json.jstr "b", Json.jstr "defB", 140, Json.jstr "y"⟩] := rfl
  refine ⟨hraw, by norm_num, ?_⟩
  exact ((c1_amended.1 _ [⟨"a", "defA"⟩, ⟨"b", "defB"⟩] _ hraw).1 (by norm_num)).2

/-- Lookup is unchanged by appending a differently-keyed binding. -/
theorem pyGet_append_ne (fs : List (String × Json)) (k2 : String) (v : Json)
    (k : String) (h : k2 ≠ k) : pyGet (fs ++ [(k2, v)]) k = pyGet fs k := by
  simp only [pyGet, List.foldl_append, List.foldl_cons, List.foldl_nil]
  rw [if_neg h]

/-- Lookup through the default-filled field list of a kept entry is
unchanged for keys other than the two appended defaults. -/
theorem pyGet_kept_fields (fs : List (String × Json)) (k : String)
    (hk1 : k ≠ "definition") (hk2 : k ≠ "reasoning") :
    pyGet (if hasKey (if hasKey fs "definition" = true then fs
        else fs ++ [("definition", Json.jstr "No definition provided")]) "reasoning" = true then
        (if hasKey fs "definition" = true then fs
         else fs ++ [("definition", Json.jstr "No definition provided")])
      else (if hasKey fs "definition" = true then fs
         else fs ++ [("definition", Json.jstr "No definition provided")]) ++
        [("reasoning", Json.jstr "No reasoning provided")]) k = pyGet fs k := by
  by_cases h1 : hasKey fs "definition" = true
  · simp only [if_pos h1]
    by_cases h2 : hasKey fs "reasoning" = true
    · simp only [if_pos h2]
    · simp only [if_neg h2]
      exact pyGet_append_ne fs _ _ k (Ne.symm hk2)
  · simp only [if_neg h1]
    by_cases h2 : hasKey (fs ++ [("definition", Json.jstr "No definition provided")]) "reasoning" = true
    · simp only [if_pos h2]
      exact pyGet_append_ne fs _ _ k (Ne.symm hk1)
    · simp only [if_neg h2]
      rw [pyGet_append_ne _ _ _ k (Ne.symm hk2)]
      exact pyGet_append_ne fs _ _ k (Ne.symm hk1)

/-- C8: when the coerced sense id of a parsed entry matches a candidate
(first match of the source loop) whose catalog definition is non-empty,
the output definition is that catalog definition, whatever definition
text the model supplied; when no candidate matches, the model-supplied
definition is used. -/
theorem c8_catalog_precedence (senses : List WordSense)
    (fs : List (String × Json)) (r : ROut)
    (hr : coerceEntry senses (Json.jobj fs) = some r)
    (hdefs : ∀ s ∈ senses, s.definition ≠ "") :
    (∀ sFound, senses.find? (fun s => jsonEqStr
        ((pyGet fs "id").getD ((pyGet fs "sense_id").getD (Json.jstr ""))) s.sense_id) =
        some sFound →
      r.rdefinition = Json.jstr sFound.definition) ∧
    (senses.find? (fun s => jsonEqStr
        ((pyGet fs "id").getD ((pyGet fs "sense_id").getD (Json.jstr ""))) s.sense_id) =
        none →
      r.rdefinition = (pyGet fs "definition").getD (Json.jstr "")) := by
  constructor
  · intro sFound hfind
    have hmem := List.mem_of_find?_eq_some hfind
    have hne := hdefs sFound hmem
    simp only [coerceEntry, hfind] at hr
    cases hpf : pyFloat ((pyGet fs "score").getD ((pyGet fs "confidence").getD (Json.jnum 0))) with
    | none => rw [hpf] at hr; cases hr
    | some q =>
      rw [hpf] at hr
      simp only [Option.some.injEq] at hr
      rw [← hr]
      simp [hne]
  · intro hnone
    simp only [coerceEntry, hnone] at hr
    cases hpf : pyFloat ((pyGet fs "score").getD ((pyGet fs "confidence").getD (Json.jnum 0))) with
    | none => rw [hpf] at hr; cases hr
    | some q =>
      rw [hpf] at hr
      simp only [Option.some.injEq] at hr
      rw [← hr]
      simp

/-- C8 witness: a concrete entry naming candidate `a` with a divergent
model definition resolves to the catalog definition. -/
theorem c8_witness :
    coerceEntry [⟨"a", "catalogDef"⟩]
      (Json.jobj [("id", Json.jstr "a"), ("definition", Json.jstr "modelDef"),
        ("score", Json.jnum 10)]) = some
      ⟨Json.jstr "a", Json.jstr "catalogDef", 10, Json.jstr ""⟩ ∧
    (⟨Json.jstr "a", Json.jstr "catalogDef", 10, Json.jstr ""⟩ : ROut).rdefinition =
      Json.jstr "catalogDef" := by
  refine ⟨rfl, ?_⟩
  exact (c8_catalog_precedence [⟨"a", "catalogDef"⟩]
    [("id", Json.jstr "a"), ("definition", Json.jstr "modelDef"), ("score", Json.jnum 10)]
    ⟨Json.jstr "a", Json.jstr "catalogDef", 10, Json.jstr ""⟩ rfl
    (by decide)).1 ⟨"a", "catalogDef"⟩ rfl

set_option maxRecDepth 40000 in
/-- C7 counterexample: the Gemini parser retains an entry that lacks both
the sense id and the confidence, substituting the empty string and 0,
instead of dropping it as the claim states. -/
theorem c7_counterexample :
    geminiParseResponse "\x7b\"results\":[\x7b\"reason\":\"hi\"\x7d]\x7d" [⟨"a", "defA"⟩] =
      some [⟨Json.jstr "", Json.jstr "", 0, Json.jstr "hi"⟩] ∧
    ([⟨Json.jstr "", Json.jstr "", 0, Json.jstr "hi"⟩] : List ROut).length ≠ 0 := by
  have hraw : geminiParseResponseRaw
      "\x7b\"results\":[\x7b\"reason\":\"hi\"\x7d]\x7d" [⟨"a", "defA"⟩] =
      some [⟨Json.jstr "", Json.jstr "", 0, Json.jstr "hi"⟩] := rfl
  have hren : renormalize [⟨Json.jstr "", Json.jstr "", 0, Json.jstr "hi"⟩] =
      [⟨Json.jstr "", Json.jstr "", 0, Json.jstr "hi"⟩] := by
    norm_num [renormalize]
  exact ⟨by simp [geminiParseResponse, hraw, hren], by simp⟩

/-- C7 amended: only the Ollama validation drops entries missing
`sense_id` or `confidence`, silently; kept entries preserve both fields;
and a result set emptied by dropping resolves to the default ranking.
The Gemini parser instead retains such entries with default values. -/
theorem c7_amended :
    (∀ (fs : List (String × Json)) (rest : List Json),
      (hasKey fs "sense_id" && hasKey fs "confidence") = false →
      validateResults (Json.jobj fs :: rest) = validateResults rest) ∧
    (∀ fs : List (String × Json),
      (hasKey fs "sense_id" && hasKey fs "confidence") = true →
      ∃ fs2, validateEntry (Json.jobj fs) = VStep.keep (Json.jobj fs2) ∧
        pyGet fs2 "sense_id" = pyGet fs "sense_id" ∧
        pyGet fs2 "confidence" = pyGet fs "confidence") ∧
    (∀ senses : List WordSense,
      ollamaDisambiguate (some "[\x7b\"x\":1\x7d]") senses = ollamaDefaultRanking senses) := by
  refine ⟨?_, ?_, ?_⟩
  · intro fs rest h
    simp [validateResults, validateEntry, h]
  · intro fs h
    unfold validateEntry
    simp only [h, if_true]
    refine ⟨_, rfl, ?_, ?_⟩
    all_goals
      first
        | exact pyGet_kept_fields fs "sense_id" (by decide) (by decide)
        | exact pyGet_kept_fields fs "confidence" (by decide) (by decide)
  · intro senses
    rfl

/-- C7 witness: the amended statement evaluated on one droppable entry
and one keepable entry. -/
theorem c7_amended_witness :
    (hasKey [("x", Json.jnum 1)] "sense_id" && hasKey [("x", Json.jnum 1)] "confidence") = false ∧
    validateResults [Json.jobj [("x", Json.jnum 1)]] = validateResults [] ∧
    (∃ fs2, validateEntry (Json.jobj [("sense_id", Json.jstr "a"), ("confidence", Json.jnum 70)]) =
      VStep.keep (Json.jobj fs2) ∧
      pyGet fs2 "sense_id" = pyGet [("sense_id", Json.jstr "a"), ("confidence", Json.jnum 70)] "sense_id" ∧
      pyGet fs2 "confidence" = pyGet [("sense_id", Json.jstr "a"), ("confidence", Json.jnum 70)] "confidence") :=
  ⟨rfl, c7_amended.1 [("x", Json.jnum 1)] [] rfl, c7_amended.2.1 _ rfl⟩

/-- C3: for non-empty candidates neither disambiguation path ever
returns an empty list (every failure resolves to the fallback), and
`query_word` always produces either a parsed payload or one of the three
enumerated error records, never an exception. -/
theorem c3_no_raise :
    (∀ (resp : Option String) (senses : List WordSense), senses ≠ [] →
      ollamaDisambiguate resp senses ≠ []) ∧
    (∀ (resp : GeminiOutcome) (senses : List WordSense), senses ≠ [] →
      geminiDisambiguate resp senses ≠ []) ∧
    (∀ env : Nat → Option String,
      (∃ v, (ollamaQueryWord env).1 = QueryResult.parsed v) ∨
      (ollamaQueryWord env).1 = QueryResult.error "No response from Ollama service" ∨
      (ollamaQueryWord env).1 = QueryResult.error "Invalid response format from Ollama" ∨
      (ollamaQueryWord env).1 = QueryResult.error "Failed to parse Ollama response") := by
  have hdef : ∀ senses : List WordSense, senses ≠ [] → ollamaDefaultRanking senses ≠ [] := by
    intro senses h
    simp [ollamaDefaultRanking, h]
  have hfall : ∀ senses : List WordSense, senses ≠ [] → geminiFallback senses ≠ [] := by
    intro senses h
    simp [geminiFallback, h]
  refine ⟨?_, ?_, ?_⟩
  · intro resp senses h
    unfold ollamaDisambiguate
    repeat' split
    all_goals first
      | exact hdef senses h
      | (rename_i hne
         intro hc
         exact hne (by simp [hc]))
  · intro resp senses h
    unfold geminiDisambiguate
    repeat' split
    all_goals first
      | exact hfall senses h
      | (rename_i hne
         intro hc
         exact hne (by simp [hc]))
  · intro env
    unfold ollamaQueryWord
    repeat' split
    all_goals first
      | exact Or.inl ⟨_, rfl⟩
      | simp

/-- C3 witness: the non-empty guarantee evaluated on a one-candidate
list with a failed gateway. -/
theorem c3_witness :
    ([⟨"a", "defA"⟩] : List WordSense) ≠ [] ∧
    ollamaDisambiguate none [⟨"a", "defA"⟩] ≠ [] ∧
    geminiDisambiguate GeminiOutcome.apiError [⟨"a", "defA"⟩] ≠ [] :=
  ⟨by decide, c3_no_raise.1 none _ (by decide), c3_no_raise.2.1 _ _ (by decide)⟩

set_option maxRecDepth 40000 in
/-- C4 counterexample: a disambiguation call whose payload fails to
parse (the cleaned text `[:]` is rejected) issues exactly one model
invocation and falls straight back to the default ranking, with no
retry, contradicting the claimed single retry for every call. -/
theorem c4_counterexample :
    jsonParse (cleanJsonForWsd "[:]") = none ∧
    (ollamaDisambiguateRun (fun _ => some "[:]") [⟨"a", "defA"⟩]).1 =
      ollamaDefaultRanking [⟨"a", "defA"⟩] ∧
    (ollamaDisambiguateRun (fun _ => some "[:]") [⟨"a", "defA"⟩]).2 = 1 ∧
    (1 : Nat) ≠ 2 :=
  ⟨rfl, rfl, rfl, by decide⟩

/-- C4 amended: only `query_word` retries, exactly once, when its
attempt fails (in particular on a parse failure), so it issues at most
two model invocations; `disambiguate` always issues exactly one and
resolves parse failures directly to the fallback. -/
theorem c4_amended :
    (∀ env : Nat → Option String, (ollamaQueryWord env).2 ≤ 2) ∧
    (∀ env : Nat → Option String,
      ollamaQueryAttempt (env 0) = AttemptResult.decodeErr →
      (ollamaQueryWord env).2 = 2) ∧
    (∀ (env : Nat → Option String) (senses : List WordSense),
      (ollamaDisambiguateRun env senses).2 = 1) := by
  refine ⟨?_, ?_, ?_⟩
  · intro env
    unfold ollamaQueryWord
    cases h0 : ollamaQueryAttempt (env 0) <;>
      cases h1 : ollamaQueryAttempt (env 1) <;> norm_num
  · intro env h
    unfold ollamaQueryWord
    rw [h]
    cases h1 : ollamaQueryAttempt (env 1) <;> rfl
  · intro env senses
    rfl

set_option maxRecDepth 40000 in
/-- C4 witness: the amended statement evaluated on an environment whose
response produces a JSON decode error, showing the one retry of
`query_word`. -/
theorem c4_amended_witness :
    ollamaQueryAttempt (some "\x7b:\x7d") = AttemptResult.decodeErr ∧
    (ollamaQueryWord (fun _ => some "\x7b:\x7d")).2 = 2 :=
  ⟨rfl, c4_amended.2.1 (fun _ => some "\x7b:\x7d") rfl⟩

/-!
Canonical flat-object JSON arrays for the repair-pipeline claims (C5 and
C6).  These are spec-side constructions: `renderArr` prints an array of
flat objects in minimal JSON, which is the shape of the ranking payloads
the repair pipeline receives, and the sanitation predicate `okArr`
restricts string contents to characters that none of the textual repairs
target.
-/

/-- A flat field value: a string or a natural number. -/
inductive FVal : Type where
  | fstr : String → FVal
  | fnat : Nat → FVal
deriving DecidableEq

/-- One key-value field of a flat object. -/
structure FField : Type where
  fkey : String
  fval : FVal
deriving DecidableEq

/-- Decimal digit character. -/
def digitChar (n : Nat) : Char := Char.ofNat (48 + n)

/-- Decimal rendering of a natural number, fuel-indexed. -/
def renderNatF : Nat → Nat → List Char
  | 0, _ => []
  | fuel + 1, n =>
    if n < 10 then [digitChar n]
    else renderNatF fuel (n / 10) ++ [digitChar (n % 10)]

/-- Decimal rendering of a natural number. -/
def renderNat (n : Nat) : List Char := renderNatF (n + 1) n

/-- Rendering of a field value. -/
def renderVal : FVal → List Char
  | FVal.fstr s => '"' :: s.data ++ ['"']
  | FVal.fnat n => renderNat n

/-- Rendering of one field: quoted key, colon, value. -/
def renderField (f : FField) : List Char :=
  '"' :: f.fkey.data ++ '"' :: ':' :: renderVal f.fval

/-- Rendering of a comma-separated field list. -/
def renderFields : List FField → List Char
  | [] => []
  | [f] => renderField f
  | f :: g :: rest => renderField f ++ ',' :: renderFields (g :: rest)

/-- Rendering of one object. -/
def renderObj (o : List FField) : List Char :=
  '{' :: renderFields o ++ ['}']

/-- Rendering of a comma-separated object list. -/
def renderObjs : List (List FField) → List Char
  | [] => []
  | [o] => renderObj o
  | o :: p :: rest => renderObj o ++ ',' :: renderObjs (p :: rest)

/-- Rendering of the whole array. -/
def renderArr (os : List (List FField)) : List Char :=
  '[' :: renderObjs os ++ [']']

/-- A character allowed inside rendered strings and keys: anything that
is not a brace, bracket, quote, backslash or comma, so that none of the
textual repairs can fire inside a string literal. -/
def okChar (c : Char) : Bool :=
  !(c = '{' || c = '}' || c = '[' || c = ']' || c = '"' || c = '\\' || c = ',')

/-- Sanitation of a string. -/
def okStr (s : String) : Bool := s.data.all okChar

/-- Sanitation of a field. -/
def okField (f : FField) : Bool :=
  okStr f.fkey && (match f.fval with
    | FVal.fstr s => okStr s
    | FVal.fnat _ => true)

/-- Sanitation of an object. -/
def okObj (o : List FField) : Bool := o.all okField

/-- Sanitation of an array. -/
def okArr (os : List (List FField)) : Bool := os.all okObj

/-- Characters that the pass-3 scan treats as plain: neither escape,
quote, bracket nor brace. -/
def neutralChar (c : Char) : Bool :=
  !(c = '\\' || c = '"' || c = '[' || c = ']' || c = '{' || c = '}')

/-- Unfolding of the sanitation predicate for one character. -/
theorem okChar_spec {c : Char} (h : okChar c = true) :
    c ≠ '{' ∧ c ≠ '}' ∧ c ≠ '[' ∧ c ≠ ']' ∧ c ≠ '"' ∧ c ≠ '\\' ∧ c ≠ ',' := by
  simp only [okChar, Bool.not_eq_true', Bool.or_eq_false_iff, decide_eq_false_iff_not] at h
  exact ⟨h.1.1.1.1.1.1, h.1.1.1.1.1.2, h.1.1.1.1.2, h.1.1.1.2, h.1.1.2, h.1.2, h.2⟩

/-- Sanitized characters are neutral for the scan. -/
theorem okChar_neutral {c : Char} (h : okChar c = true) : neutralChar c = true := by
  obtain ⟨h1, h2, h3, h4, h5, h6, -⟩ := okChar_spec h
  simp [neutralChar, h1, h2, h3, h4, h5, h6]

/-- Digit characters are sanitized. -/
theorem digitChar_ok : ∀ d : Nat, d < 10 → okChar (digitChar d) = true := by decide

/-- Every character of a rendered natural number is a digit character. -/
theorem renderNatF_mem : ∀ (fuel n : Nat), ∀ c ∈ renderNatF fuel n,
    ∃ d, d < 10 ∧ c = digitChar d
  | 0, _, c, hc => absurd hc (by simp [renderNatF])
  | fuel + 1, n, c, hc => by
    by_cases h : n < 10
    · simp only [renderNatF, if_pos h, List.mem_singleton] at hc
      exact ⟨n, h, hc⟩
    · simp only [renderNatF, if_neg h, List.mem_append, List.mem_singleton] at hc
      rcases hc with hc | hc
      · exact renderNatF_mem fuel (n / 10) c hc
      · exact ⟨n % 10, Nat.mod_lt _ (by norm_num), hc⟩

/-- Every character of a rendered natural number is sanitized. -/
theorem renderNat_ok (n : Nat) : ∀ c ∈ renderNat n, okChar c = true := by
  intro c hc
  obtain ⟨d, hd, rfl⟩ := renderNatF_mem (n + 1) n c hc
  exact digitChar_ok d hd

/-- A rendered natural number is never empty. -/
theorem renderNat_ne_nil (n : Nat) : renderNat n ≠ [] := by
  unfold renderNat renderNatF
  split <;> simp

/-- A rendered value is never empty. -/
theorem renderVal_ne_nil (v : FVal) : renderVal v ≠ [] := by
  cases v with
  | fstr s => simp [renderVal]
  | fnat n => exact renderNat_ne_nil n

/-- No rendered value of a sanitized field contains a comma. -/
theorem renderVal_no_comma {v : FVal}
    (h : (match v with | FVal.fstr s => okStr s | FVal.fnat _ => true) = true) :
    ∀ c ∈ renderVal v, c ≠ ',' := by
  intro c hc
  cases v with
  | fstr s =>
    simp only [renderVal, List.mem_append, List.mem_cons, List.mem_nil_iff,
      or_false] at hc
    rcases hc with (rfl | hc) | rfl
    · decide
    · exact (okChar_spec (List.all_eq_true.mp (by simpa [okStr] using h) c hc)).2.2.2.2.2.2
    · decide
  | fnat n => exact (okChar_spec (renderNat_ok n c hc)).2.2.2.2.2.2

/-- No rendered field of a sanitized field contains a comma. -/
theorem renderField_no_comma {f : FField} (h : okField f = true) :
    ∀ c ∈ renderField f, c ≠ ',' := by
  have hk : okStr f.fkey = true := by
    simp only [okField, Bool.and_eq_true] at h
    exact h.1
  have hv : (match f.fval with | FVal.fstr s => okStr s | FVal.fnat _ => true) = true := by
    simp only [okField, Bool.and_eq_true] at h
    exact h.2
  intro c hc
  simp only [renderField, List.mem_append, List.mem_cons] at hc
  rcases hc with (rfl | hc) | (rfl | rfl | hc)
  · decide
  · exact (okChar_spec (List.all_eq_true.mp (by simpa [okStr] using hk) c hc)).2.2.2.2.2.2
  · decide
  · decide
  · exact renderVal_no_comma hv c hc

/-- The rendered field list of a non-empty object starts with a quote. -/
theorem renderFields_head (f : FField) (o : List FField) :
    ∃ t, renderFields (f :: o) = '"' :: t := by
  cases o with
  | nil => exact ⟨_, rfl⟩
  | cons g rest => exact ⟨_, rfl⟩

/-- The rendered object list of a non-empty array starts with a brace. -/
theorem renderObjs_head (o : List FField) (os : List (List FField)) :
    ∃ t, renderObjs (o :: os) = '{' :: t := by
  cases os with
  | nil => exact ⟨_, rfl⟩
  | cons p rest => exact ⟨_, rfl⟩

/-- A rendered object ends with its closing brace. -/
theorem renderObj_last (o : List FField) :
    (renderObj o).getLast? = some '}' := by
  rw [show renderObj o = ('{' :: renderFields o) ++ ['}'] by simp [renderObj],
    List.getLast?_append_of_ne_nil _ (by simp)]
  rfl

/-- The rendered object list of a non-empty array ends with a closing
brace. -/
theorem renderObjs_last : ∀ (o : List FField) (os : List (List FField)),
    (renderObjs (o :: os)).getLast? = some '}'
  | o, [] => renderObj_last o
  | o, p :: rest => by
    have ih := renderObjs_last p rest
    have hne : renderObjs (p :: rest) ≠ [] := by
      intro hnil
      rw [hnil] at ih
      cases ih
    calc (renderObjs (o :: p :: rest)).getLast?
        = (renderObj o ++ ',' :: renderObjs (p :: rest)).getLast? := rfl
      _ = (',' :: renderObjs (p :: rest)).getLast? := by
          rw [List.getLast?_append_of_ne_nil _ (by simp)]
      _ = (renderObjs (p :: rest)).getLast? := by
          rw [show (',' :: renderObjs (p :: rest)) = [','] ++ renderObjs (p :: rest) from rfl,
            List.getLast?_append_of_ne_nil _ hne]
      _ = some '}' := ih

/-- The last character of a rendered sanitized field is not a comma. -/
theorem renderField_last_ne_comma {f : FField} (h : okField f = true) :
    ∀ x, (renderField f).getLast? = some x → x ≠ ',' := by
  intro x hx
  have hmem : x ∈ renderField f := by
    obtain ⟨hne, heq⟩ := List.mem_getLast?_eq_getLast hx
    rw [heq]
    exact List.getLast_mem hne
  exact renderField_no_comma h x hmem

/-- The last character of a rendered sanitized field list is not a
comma. -/
theorem renderFields_last_ne_comma : ∀ (o : List FField), okObj o = true →
    ∀ x, (renderFields o).getLast? = some x → x ≠ ','
  | [], _, x, hx => by cases hx
  | [f], h, x, hx => by
    have hf : okField f = true := by
      simp only [okObj, List.all_eq_true] at h
      exact h f (by simp)
    exact renderField_last_ne_comma hf x hx
  | f :: g :: rest, h, x, hx => by
    have hrest : okObj (g :: rest) = true := by
      simp only [okObj, List.all_eq_true] at h ⊢
      intro a ha
      exact h a (List.mem_cons_of_mem f ha)
    have hne : renderFields (g :: rest) ≠ [] := by
      obtain ⟨t, ht⟩ := renderFields_head g rest
      rw [ht]
      simp
    rw [show renderFields (f :: g :: rest) =
        renderField f ++ ',' :: renderFields (g :: rest) from rfl,
      List.getLast?_append_of_ne_nil _ (by simp),
      show (',' :: renderFields (g :: rest)) = [','] ++ renderFields (g :: rest) from rfl,
      List.getLast?_append_of_ne_nil _ hne] at hx
    exact renderFields_last_ne_comma (g :: rest) hrest x hx

/-- Adjacency invariant defeating pass 1: every comma is immediately
followed by a quote or an opening brace, so the trailing-comma pattern
(comma, whitespace, closer) never matches. -/
def adjOK (a b : Char) : Prop := a = ',' → (b = '"' ∨ b = '{')

/-- A comma-free text satisfies the adjacency invariant. -/
theorem chain'_of_no_comma {l : List Char} (h : ∀ c ∈ l, c ≠ ',') :
    l.Chain' adjOK := by
  induction l with
  | nil => exact List.chain'_nil
  | cons a rest ih =>
    rw [List.chain'_cons']
    refine ⟨fun y _ hac => absurd hac (h a (by simp)), ?_⟩
    exact ih (fun c hc => h c (List.mem_cons_of_mem a hc))

/-- Append boundary for the adjacency invariant when the left part is
comma-free. -/
theorem adjOK_boundary_no_comma {l1 l2 : List Char} (h : ∀ c ∈ l1, c ≠ ',') :
    ∀ x ∈ l1.getLast?, ∀ y ∈ l2.head?, adjOK x y := by
  intro x hx y _ hcomma
  obtain ⟨hne, heq⟩ := List.mem_getLast?_eq_getLast hx
  exact absurd hcomma (h x (heq ▸ List.getLast_mem hne))

/-- Extraction of the head field sanitation. -/
theorem okObj_head {f : FField} {o : List FField} (h : okObj (f :: o) = true) :
    okField f = true := by
  simp only [okObj, List.all_cons, Bool.and_eq_true] at h
  exact h.1

/-- Extraction of the tail object sanitation. -/
theorem okObj_tail {f : FField} {o : List FField} (h : okObj (f :: o) = true) :
    okObj o = true := by
  simp only [okObj, List.all_cons, Bool.and_eq_true] at h
  exact h.2

/-- Extraction of the head object sanitation. -/
theorem okArr_head {o : List FField} {os : List (List FField)}
    (h : okArr (o :: os) = true) : okObj o = true := by
  simp only [okArr, List.all_cons, Bool.and_eq_true] at h
  exact h.1

/-- Extraction of the tail array sanitation. -/
theorem okArr_tail {o : List FField} {os : List (List FField)}
    (h : okArr (o :: os) = true) : okArr os = true := by
  simp only [okArr, List.all_cons, Bool.and_eq_true] at h
  exact h.2

/-- The adjacency invariant holds of a rendered sanitized field list. -/
theorem chain'_renderFields : ∀ (o : List FField), okObj o = true →
    (renderFields o).Chain' adjOK
  | [], _ => List.chain'_nil
  | [f], h => chain'_of_no_comma (renderField_no_comma (okObj_head h))
  | f :: g :: rest, h => by
    have hf := okObj_head h
    have hrest := okObj_tail h
    rw [show renderFields (f :: g :: rest) =
      renderField f ++ ',' :: renderFields (g :: rest) from rfl, List.chain'_append]
    refine ⟨chain'_of_no_comma (renderField_no_comma hf), ?_,
      adjOK_boundary_no_comma (renderField_no_comma hf)⟩
    rw [List.chain'_cons']
    constructor
    · intro y hy _
      obtain ⟨t, ht⟩ := renderFields_head g rest
      rw [ht] at hy
      simp only [List.head?_cons, Option.mem_def, Option.some.injEq] at hy
      exact Or.inl hy.symm
    · exact chain'_renderFields (g :: rest) hrest

/-- The adjacency invariant holds of a rendered sanitized object. -/
theorem chain'_renderObj (o : List FField) (h : okObj o = true) :
    (renderObj o).Chain' adjOK := by
  rw [show renderObj o = ('{' :: renderFields o) ++ ['}'] from rfl, List.chain'_append]
  refine ⟨?_, List.chain'_singleton _, ?_⟩
  · rw [List.chain'_cons']
    exact ⟨fun y _ hc => absurd hc (by decide), chain'_renderFields o h⟩
  · intro x hx y _ hc
    cases o with
    | nil =>
      simp only [renderFields, Option.mem_def] at hx
      simp only [List.getLast?_singleton, Option.some.injEq] at hx
      rw [← hx] at hc
      cases hc
    | cons f o2 =>
      obtain ⟨t, ht⟩ := renderFields_head f o2
      rw [ht, List.getLast?_cons_cons] at hx
      rw [← ht] at hx
      exact absurd hc (renderFields_last_ne_comma (f :: o2) h x hx)

/-- The adjacency invariant holds of a rendered sanitized object list. -/
theorem chain'_renderObjs : ∀ (os : List (List FField)), okArr os = true →
    (renderObjs os).Chain' adjOK
  | [], _ => List.chain'_nil
  | [o], h => chain'_renderObj o (okArr_head h)
  | o :: p :: rest, h => by
    have ho := okArr_head h
    have hrest := okArr_tail h
    rw [show renderObjs (o :: p :: rest) =
      renderObj o ++ ',' :: renderObjs (p :: rest) from rfl, List.chain'_append]
    refine ⟨chain'_renderObj o ho, ?_, ?_⟩
    · rw [List.chain'_cons']
      constructor
      · intro y hy _
        obtain ⟨t, ht⟩ := renderObjs_head p rest
        rw [ht] at hy
        simp only [List.head?_cons, Option.mem_def, Option.some.injEq] at hy
        exact Or.inr hy.symm
      · exact chain'_renderObjs (p :: rest) hrest
    · intro x hx y _ hc
      rw [Option.mem_def, renderObj_last, Option.some.injEq] at hx
      rw [← hx] at hc
      cases hc

/-- The adjacency invariant holds of a rendered sanitized array. -/
theorem chain'_renderArr (os : List (List FField)) (h : okArr os = true) :
    (renderArr os).Chain' adjOK := by
  rw [show renderArr os = ('[' :: renderObjs os) ++ [']'] from rfl, List.chain'_append]
  refine ⟨?_, List.chain'_singleton _, ?_⟩
  · rw [List.chain'_cons']
    exact ⟨fun y _ hc => absurd hc (by decide), chain'_renderObjs os h⟩
  · intro x hx y _ hc
    cases os with
    | nil =>
      simp only [renderObjs, Option.mem_def] at hx
      simp only [List.getLast?_singleton, Option.some.injEq] at hx
      rw [← hx] at hc
      cases hc
    | cons o os2 =>
      obtain ⟨t, ht⟩ := renderObjs_head o os2
      rw [ht, List.getLast?_cons_cons] at hx
      rw [← ht] at hx
      rw [Option.mem_def, renderObjs_last, Option.some.injEq] at hx
      rw [← hx] at hc
      cases hc

/-- Pass 1 on the empty text. -/
theorem removeTrailingCommasF_nil : ∀ fuel, removeTrailingCommasF fuel [] = [] := by
  intro fuel
  cases fuel <;> rfl

/-- Pass 1 is the identity on texts satisfying the adjacency
invariant. -/
theorem pass1_id : ∀ (fuel : Nat) (l : List Char), l.length < fuel →
    l.Chain' adjOK → removeTrailingCommasF fuel l = l
  | _ + 1, [], _, _ => rfl
  | fuel + 1, c :: rest, hlen, hch => by
    have hlen2 : rest.length < fuel := by
      simp only [List.length_cons] at hlen
      omega
    by_cases hc : c = ','
    · subst hc
      cases rest with
      | nil =>
        show removeTrailingCommasF (fuel + 1) [','] = [',']
        unfold removeTrailingCommasF
        simp [removeTrailingCommasF_nil]
      | cons b rest2 =>
        have hadj : adjOK ',' b := (List.chain'_cons.mp hch).1
        have hb := hadj rfl
        have hbs : pyIsSpace b = false := by rcases hb with rfl | rfl <;> decide
        have hbc : ¬(b = '}' ∨ b = ']') := by rcases hb with rfl | rfl <;> decide
        have hdw : (b :: rest2).dropWhile pyIsSpace = b :: rest2 := by
          rw [List.dropWhile_cons, if_neg (by simp [hbs])]
        have ih := pass1_id fuel (b :: rest2) hlen2 (List.chain'_cons.mp hch).2
        show removeTrailingCommasF (fuel + 1) (',' :: b :: rest2) = ',' :: b :: rest2
        unfold removeTrailingCommasF
        rw [if_pos rfl, hdw]
        simp only [if_neg hbc]
        rw [ih]
    · have ih := pass1_id fuel rest hlen2 (List.chain'_cons'.mp hch).2
      show removeTrailingCommasF (fuel + 1) (c :: rest) = c :: rest
      unfold removeTrailingCommasF
      rw [if_neg hc, ih]

/-- Pass 1 is the identity on any text satisfying the adjacency
invariant. -/
theorem removeTrailingCommas_id (l : List Char) (hch : l.Chain' adjOK) :
    removeTrailingCommas l = l :=
  pass1_id (l.length + 1) l (by omega) hch

/-- Character inventory of a rendered sanitized value. -/
theorem renderVal_mem_chars {v : FVal}
    (h : (match v with | FVal.fstr s => okStr s | FVal.fnat _ => true) = true) :
    ∀ c ∈ renderVal v, okChar c = true ∨ c = '"' := by
  intro c hc
  cases v with
  | fstr s =>
    simp only [renderVal, List.mem_append, List.mem_cons, List.mem_nil_iff,
      or_false] at hc
    rcases hc with (rfl | hc) | rfl
    · exact Or.inr rfl
    · exact Or.inl (List.all_eq_true.mp (by simpa [okStr] using h) c hc)
    · exact Or.inr rfl
  | fnat n => exact Or.inl (renderNat_ok n c hc)

/-- Character inventory of a rendered sanitized field. -/
theorem renderField_mem_chars {f : FField} (h : okField f = true) :
    ∀ c ∈ renderField f, okChar c = true ∨ c = '"' ∨ c = ':' := by
  have hk : okStr f.fkey = true := by
    simp only [okField, Bool.and_eq_true] at h
    exact h.1
  have hv : (match f.fval with | FVal.fstr s => okStr s | FVal.fnat _ => true) = true := by
    simp only [okField, Bool.and_eq_true] at h
    exact h.2
  intro c hc
  simp only [renderField, List.mem_append, List.mem_cons] at hc
  rcases hc with (rfl | hc) | (rfl | rfl | hc)
  · exact Or.inr (Or.inl rfl)
  · exact Or.inl (List.all_eq_true.mp (by simpa [okStr] using hk) c hc)
  · exact Or.inr (Or.inl rfl)
  · exact Or.inr (Or.inr rfl)
  · rcases renderVal_mem_chars hv c hc with h1 | h1
    · exact Or.inl h1
    · exact Or.inr (Or.inl h1)

/-- Character inventory of a rendered sanitized field list. -/
theorem renderFields_mem_chars : ∀ (o : List FField), okObj o = true →
    ∀ c ∈ renderFields o, okChar c = true ∨ c = '"' ∨ c = ':' ∨ c = ','
  | [], _, c, hc => absurd hc (by simp [renderFields])
  | [f], h, c, hc => by
    rcases renderField_mem_chars (okObj_head h) c hc with h1 | h1 | h1
    · exact Or.inl h1
    · exact Or.inr (Or.inl h1)
    · exact Or.inr (Or.inr (Or.inl h1))
  | f :: g :: rest, h, c, hc => by
    rw [show renderFields (f :: g :: rest) =
      renderField f ++ ',' :: renderFields (g :: rest) from rfl] at hc
    simp only [List.mem_append, List.mem_cons] at hc
    rcases hc with hc | rfl | hc
    · rcases renderField_mem_chars (okObj_head h) c hc with h1 | h1 | h1
      · exact Or.inl h1
      · exact Or.inr (Or.inl h1)
      · exact Or.inr (Or.inr (Or.inl h1))
    · exact Or.inr (Or.inr (Or.inr rfl))
    · exact renderFields_mem_chars (g :: rest) (okObj_tail h) c hc

/-- Rendered field lists contain no braces or brackets. -/
theorem renderFields_count_zero (o : List FField) (hok : okObj o = true)
    (c : Char) (hc : c = '{' ∨ c = '}' ∨ c = '[' ∨ c = ']') :
    (renderFields o).count c = 0 := by
  rw [List.count_eq_zero]
  intro hmem
  rcases renderFields_mem_chars o hok c hmem with h1 | h1 | h1 | h1
  · obtain ⟨g1, g2, g3, g4, -, -, -⟩ := okChar_spec h1
    rcases hc with rfl | rfl | rfl | rfl <;> simp_all
  all_goals rcases hc with rfl | rfl | rfl | rfl <;> cases h1

/-- Structural character counts of a rendered sanitized object. -/
theorem renderObj_count (o : List FField) (hok : okObj o = true) :
    (renderObj o).count '{' = 1 ∧ (renderObj o).count '}' = 1 ∧
    (renderObj o).count '[' = 0 ∧ (renderObj o).count ']' = 0 := by
  have h1 := renderFields_count_zero o hok '{' (by simp)
  have h2 := renderFields_count_zero o hok '}' (by simp)
  have h3 := renderFields_count_zero o hok '[' (by simp)
  have h4 := renderFields_count_zero o hok ']' (by simp)
  rw [show renderObj o = ('{' :: renderFields o) ++ ['}'] from rfl]
  simp [List.count_append, List.count_cons, h1, h2, h3, h4]

/-- Structural character counts of a rendered sanitized object list. -/
theorem renderObjs_count : ∀ (os : List (List FField)), okArr os = true →
    (renderObjs os).count '{' = os.length ∧ (renderObjs os).count '}' = os.length ∧
    (renderObjs os).count '[' = 0 ∧ (renderObjs os).count ']' = 0
  | [], _ => by simp [renderObjs]
  | [o], h => by
    have := renderObj_count o (okArr_head h)
    simpa [renderObjs] using this
  | o :: p :: rest, h => by
    have h1 := renderObj_count o (okArr_head h)
    have h2 := renderObjs_count (p :: rest) (okArr_tail h)
    rw [show renderObjs (o :: p :: rest) =
      renderObj o ++ ',' :: renderObjs (p :: rest) from rfl]
    simp only [List.count_append, List.count_cons, List.length_cons]
    constructor
    · simp [h1.1, h2.1]
      omega
    constructor
    · simp [h2.2.1, h1.2.1]
      omega
    constructor
    · simp [h1.2.2.1, h2.2.2.1]
    · simp [h1.2.2.2, h2.2.2.2]

/-- Pass 2 appends nothing to a rendered sanitized array. -/
theorem appendClosers_render (os : List (List FField)) (hok : okArr os = true) :
    appendClosers (renderArr os) = renderArr os := by
  obtain ⟨h1, h2, h3, h4⟩ := renderObjs_count os hok
  unfold appendClosers
  rw [show renderArr os = ('[' :: renderObjs os) ++ [']'] from rfl]
  simp [List.count_append, List.count_cons, h1, h2, h3, h4]

/-- Pass 2 restores the missing single bracket of a one-closer
truncation. -/
theorem appendClosers_take1 (os : List (List FField)) (hok : okArr os = true) :
    appendClosers ('[' :: renderObjs os) = renderArr os := by
  obtain ⟨h1, h2, h3, h4⟩ := renderObjs_count os hok
  unfold appendClosers
  simp [List.count_cons, h1, h2, h3, h4, renderArr]

/-- Pass 2 restores the missing brace and bracket of a two-closer
truncation. -/
theorem appendClosers_take2 (os : List (List FField)) (hok : okArr os = true)
    (t : List Char) (ht : renderObjs os = t ++ ['}']) :
    appendClosers ('[' :: t) = renderArr os := by
  obtain ⟨h1, h2, h3, h4⟩ := renderObjs_count os hok
  rw [ht] at h1 h2 h3 h4
  simp only [List.count_append, List.count_cons, List.count_nil] at h1 h2 h3 h4
  have hlen : 1 ≤ os.length := by
    cases os with
    | nil =>
      rw [show renderObjs [] = ([] : List Char) from rfl] at ht
      exact absurd ht.symm (by simp)
    | cons o os2 => simp
  have hto : t.count '{' = os.length := by
    simpa using h1
  have htc : t.count '}' = os.length - 1 := by
    simp at h2
    omega
  have htb1 : t.count '[' = 0 := by simpa using h3
  have htb2 : t.count ']' = 0 := by simpa using h4
  have hrep1 : os.length - (os.length - 1) = 1 := by omega
  unfold appendClosers
  rw [show (('[' : Char) :: t).count '{' = os.length by simp [List.count_cons, hto],
      show (('[' : Char) :: t).count '}' = os.length - 1 by simp [List.count_cons, htc],
      show (('[' : Char) :: t).count '[' = 1 by simp [List.count_cons, htb1],
      show (('[' : Char) :: t).count ']' = 0 by simp [List.count_cons, htb2]]
  show ('[' : Char) :: t ++ List.replicate (os.length - (os.length - 1)) '}' ++
    List.replicate (1 - 0) ']' = renderArr os
  rw [hrep1]
  simp [renderArr, ht]

/-- Unfolding of the neutrality predicate for one character. -/
theorem neutralChar_spec {c : Char} (h : neutralChar c = true) :
    c ≠ '\\' ∧ c ≠ '"' ∧ c ≠ '[' ∧ c ≠ ']' ∧ c ≠ '{' ∧ c ≠ '}' := by
  simp only [neutralChar, Bool.not_eq_true', Bool.or_eq_false_iff,
    decide_eq_false_iff_not] at h
  exact ⟨h.1.1.1.1.1, h.1.1.1.1.2, h.1.1.1.2, h.1.1.2, h.1.2, h.2⟩

/-- Scanning a run of sanitized characters inside a string literal only
advances the index. -/
theorem scan_inStr_chunk : ∀ (l : List Char), (∀ c ∈ l, okChar c = true) →
    ∀ (bk br last : Int) (idx : Nat),
    List.foldl scanStep ⟨bk, br, true, false, last, idx⟩ l =
      ⟨bk, br, true, false, last, idx + l.length⟩
  | [], _, bk, br, last, idx => by simp
  | c :: rest, h, bk, br, last, idx => by
    obtain ⟨-, -, -, -, h5, h6, -⟩ := okChar_spec (h c (by simp))
    rw [List.foldl_cons]
    rw [show scanStep ⟨bk, br, true, false, last, idx⟩ c =
        ⟨bk, br, true, false, last, idx + 1⟩ by simp [scanStep, h5, h6]]
    rw [scan_inStr_chunk rest (fun d hd => h d (List.mem_cons_of_mem c hd))
      bk br last (idx + 1)]
    rw [show idx + 1 + rest.length = idx + (c :: rest).length by
      simp only [List.length_cons]
      try omega]

/-- Scanning a run of neutral characters at nonzero bracket depth only
advances the index. -/
theorem scan_neutral_chunk : ∀ (l : List Char), (∀ c ∈ l, neutralChar c = true) →
    ∀ (bk br last : Int) (idx : Nat), bk ≠ 0 →
    List.foldl scanStep ⟨bk, br, false, false, last, idx⟩ l =
      ⟨bk, br, false, false, last, idx + l.length⟩
  | [], _, bk, br, last, idx, _ => by simp
  | c :: rest, h, bk, br, last, idx, hbk => by
    obtain ⟨h1, h2, h3, h4, h5, h6⟩ := neutralChar_spec (h c (by simp))
    rw [List.foldl_cons]
    rw [show scanStep ⟨bk, br, false, false, last, idx⟩ c =
        ⟨bk, br, false, false, last, idx + 1⟩ by
      simp [scanStep, h1, h2, h3, h4, h5, h6, hbk]]
    rw [scan_neutral_chunk rest (fun d hd => h d (List.mem_cons_of_mem c hd))
      bk br last (idx + 1) hbk]
    rw [show idx + 1 + rest.length = idx + (c :: rest).length by
      simp only [List.length_cons]
      try omega]

/-- Scanning a quoted sanitized string literal returns to the same depth
and string state, only advancing the index. -/
theorem scan_quoted (sdata : List Char) (hok : ∀ c ∈ sdata, okChar c = true)
    (bk br last : Int) (idx : Nat) :
    List.foldl scanStep ⟨bk, br, false, false, last, idx⟩ ('"' :: sdata ++ ['"']) =
      ⟨bk, br, false, false, last, idx + (sdata.length + 2)⟩ := by
  have s1 : List.foldl scanStep ⟨bk, br, false, false, last, idx⟩ ('"' :: sdata) =
      ⟨bk, br, true, false, last, idx + 1 + sdata.length⟩ := by
    rw [List.foldl_cons]
    rw [show scanStep ⟨bk, br, false, false, last, idx⟩ '"' =
        ⟨bk, br, true, false, last, idx + 1⟩ by simp [scanStep]]
    exact scan_inStr_chunk sdata hok bk br last (idx + 1)
  rw [List.foldl_append, s1]
  rw [show List.foldl scanStep
      (⟨bk, br, true, false, last, idx + 1 + sdata.length⟩ : ScanState) ['"'] =
      scanStep ⟨bk, br, true, false, last, idx + 1 + sdata.length⟩ '"' from rfl]
  rw [show scanStep (⟨bk, br, true, false, last, idx + 1 + sdata.length⟩ : ScanState) '"' =
      ⟨bk, br, false, false, last, idx + 1 + sdata.length + 1⟩ by simp [scanStep]]
  rw [show idx + 1 + sdata.length + 1 = idx + (sdata.length + 2) by omega]

/-- Scanning a rendered sanitized value at nonzero bracket depth only
advances the index. -/
theorem scan_renderVal (v : FVal)
    (hv : (match v with | FVal.fstr s => okStr s | FVal.fnat _ => true) = true)
    (bk br last : Int) (idx : Nat) (hbk : bk ≠ 0) :
    List.foldl scanStep ⟨bk, br, false, false, last, idx⟩ (renderVal v) =
      ⟨bk, br, false, false, last, idx + (renderVal v).length⟩ := by
  cases v with
  | fstr s =>
    have hok : ∀ c ∈ s.data, okChar c = true := fun c hc =>
      List.all_eq_true.mp (by simpa [okStr] using hv) c hc
    rw [show renderVal (FVal.fstr s) = ('"' :: s.data) ++ ['"'] from rfl,
      scan_quoted s.data hok bk br last idx]
    rw [show idx + (s.data.length + 2) = idx + (('"' :: s.data) ++ ['"'] : List Char).length by
      simp only [List.length_append, List.length_cons, List.length_nil]
      try omega]
  | fnat n =>
    have hok : ∀ c ∈ renderNat n, neutralChar c = true := fun c hc =>
      okChar_neutral (renderNat_ok n c hc)
    exact scan_neutral_chunk (renderNat n) hok bk br last idx hbk

/-- Scanning one rendered sanitized field at nonzero bracket depth only
advances the index. -/
theorem scan_renderField (f : FField) (hok : okField f = true)
    (bk br last : Int) (idx : Nat) (hbk : bk ≠ 0) :
    List.foldl scanStep ⟨bk, br, false, false, last, idx⟩ (renderField f) =
      ⟨bk, br, false, false, last, idx + (renderField f).length⟩ := by
  have hkey : ∀ c ∈ f.fkey.data, okChar c = true := fun c hc => by
    have h1 : okStr f.fkey = true := by
      simp only [okField, Bool.and_eq_true] at hok
      exact hok.1
    exact List.all_eq_true.mp (by simpa [okStr] using h1) c hc
  have hval : (match f.fval with | FVal.fstr s => okStr s | FVal.fnat _ => true) = true := by
    simp only [okField, Bool.and_eq_true] at hok
    exact hok.2
  have s1 : List.foldl scanStep ⟨bk, br, false, false, last, idx⟩ ('"' :: f.fkey.data) =
      ⟨bk, br, true, false, last, idx + 1 + f.fkey.data.length⟩ := by
    rw [List.foldl_cons]
    rw [show scanStep ⟨bk, br, false, false, last, idx⟩ '"' =
        ⟨bk, br, true, false, last, idx + 1⟩ by simp [scanStep]]
    exact scan_inStr_chunk f.fkey.data hkey bk br last (idx + 1)
  rw [show renderField f = ('"' :: f.fkey.data) ++ ('"' :: ':' :: renderVal f.fval) from rfl,
    List.foldl_append, s1, List.foldl_cons]
  rw [show scanStep (⟨bk, br, true, false, last, idx + 1 + f.fkey.data.length⟩ : ScanState) '"' =
      ⟨bk, br, false, false, last, idx + 1 + f.fkey.data.length + 1⟩ by simp [scanStep]]
  rw [List.foldl_cons]
  rw [show scanStep
      (⟨bk, br, false, false, last, idx + 1 + f.fkey.data.length + 1⟩ : ScanState) ':' =
      ⟨bk, br, false, false, last, idx + 1 + f.fkey.data.length + 1 + 1⟩ by
    simp [scanStep, hbk]]
  rw [scan_renderVal f.fval hval bk br last _ hbk]
  rw [show idx + 1 + f.fkey.data.length + 1 + 1 + (renderVal f.fval).length =
      idx + (('"' :: f.fkey.data) ++ ('"' :: ':' :: renderVal f.fval) : List Char).length by
    simp only [List.length_append, List.length_cons]
    try omega]

/-- Scanning a rendered sanitized field list at nonzero bracket depth
only advances the index. -/
theorem scan_renderFields : ∀ (o : List FField), okObj o = true →
    ∀ (bk br last : Int) (idx : Nat), bk ≠ 0 →
    List.foldl scanStep ⟨bk, br, false, false, last, idx⟩ (renderFields o) =
      ⟨bk, br, false, false, last, idx + (renderFields o).length⟩
  | [], _, bk, br, last, idx, _ => by simp [renderFields]
  | [f], h, bk, br, last, idx, hbk => by
    rw [show renderFields [f] = renderField f from rfl]
    exact scan_renderField f (okObj_head h) bk br last idx hbk
  | f :: g :: rest, h, bk, br, last, idx, hbk => by
    rw [show renderFields (f :: g :: rest) =
        renderField f ++ ',' :: renderFields (g :: rest) from rfl,
      List.foldl_append, scan_renderField f (okObj_head h) bk br last idx hbk,
      List.foldl_cons]
    rw [show scanStep
        (⟨bk, br, false, false, last, idx + (renderField f).length⟩ : ScanState) ',' =
        ⟨bk, br, false, false, last, idx + (renderField f).length + 1⟩ by
      simp [scanStep, hbk]]
    rw [scan_renderFields (g :: rest) (okObj_tail h) bk br last _ hbk]
    rw [show idx + (renderField f).length + 1 + (renderFields (g :: rest)).length =
        idx + (renderField f ++ ',' :: renderFields (g :: rest)).length by
      simp only [List.length_append, List.length_cons]
      try omega]

/-- Scanning one rendered sanitized object at nonzero bracket depth
restores the brace depth and only advances the index. -/
theorem scan_renderObj (o : List FField) (hok : okObj o = true)
    (bk br last : Int) (idx : Nat) (hbk : bk ≠ 0) :
    List.foldl scanStep ⟨bk, br, false, false, last, idx⟩ (renderObj o) =
      ⟨bk, br, false, false, last, idx + (renderObj o).length⟩ := by
  rw [show renderObj o = '{' :: (renderFields o ++ ['}']) by simp [renderObj],
    List.foldl_cons]
  rw [show scanStep ⟨bk, br, false, false, last, idx⟩ '{' =
      ⟨bk, br + 1, false, false, last, idx + 1⟩ by simp [scanStep, hbk]]
  rw [List.foldl_append, scan_renderFields o hok bk (br + 1) last (idx + 1) hbk]
  rw [show List.foldl scanStep
      (⟨bk, br + 1, false, false, last, idx + 1 + (renderFields o).length⟩ : ScanState) ['}'] =
      scanStep ⟨bk, br + 1, false, false, last, idx + 1 + (renderFields o).length⟩ '}' from rfl]
  rw [show scanStep
      (⟨bk, br + 1, false, false, last, idx + 1 + (renderFields o).length⟩ : ScanState) '}' =
      ⟨bk, br, false, false, last, idx + 1 + (renderFields o).length + 1⟩ by
    simp [scanStep, hbk]]
  rw [show idx + 1 + (renderFields o).length + 1 =
      idx + (('{' :: (renderFields o ++ ['}']) : List Char)).length by
    simp only [List.length_append, List.length_cons, List.length_nil]
    try omega]

/-- Scanning a rendered sanitized object list at nonzero bracket depth
restores the depths and only advances the index. -/
theorem scan_renderObjs : ∀ (os : List (List FField)), okArr os = true →
    ∀ (bk br last : Int) (idx : Nat), bk ≠ 0 →
    List.foldl scanStep ⟨bk, br, false, false, last, idx⟩ (renderObjs os) =
      ⟨bk, br, false, false, last, idx + (renderObjs os).length⟩
  | [], _, bk, br, last, idx, _ => by simp [renderObjs]
  | [o], h, bk, br, last, idx, hbk => by
    rw [show renderObjs [o] = renderObj o from rfl]
    exact scan_renderObj o (okArr_head h) bk br last idx hbk
  | o :: p :: rest, h, bk, br, last, idx, hbk => by
    rw [show renderObjs (o :: p :: rest) =
        renderObj o ++ ',' :: renderObjs (p :: rest) from rfl,
      List.foldl_append, scan_renderObj o (okArr_head h) bk br last idx hbk,
      List.foldl_cons]
    rw [show scanStep
        (⟨bk, br, false, false, last, idx + (renderObj o).length⟩ : ScanState) ',' =
        ⟨bk, br, false, false, last, idx + (renderObj o).length + 1⟩ by
      simp [scanStep, hbk]]
    rw [scan_renderObjs (p :: rest) (okArr_tail h) bk br last _ hbk]
    rw [show idx + (renderObj o).length + 1 + (renderObjs (p :: rest)).length =
        idx + (renderObj o ++ ',' :: renderObjs (p :: rest)).length by
      simp only [List.length_append, List.length_cons]
      try omega]

/-- Final state of the pass-3 scan over a rendered sanitized array: both
depths return to zero and the last balanced position is the final
index. -/
theorem runScan_renderArr (os : List (List FField)) (hok : okArr os = true) :
    runScan (renderArr os) =
      ⟨0, 0, false, false, ((1 + (renderObjs os).length : Nat) : Int),
        1 + (renderObjs os).length + 1⟩ := by
  have hpos : 0 < 1 + (renderObjs os).length := by omega
  unfold runScan
  rw [show renderArr os = '[' :: (renderObjs os ++ [']']) by simp [renderArr],
    List.foldl_cons]
  rw [show scanStep scanInit '[' = ⟨1, 0, false, false, -1, 1⟩ by
    simp [scanStep, scanInit]]
  rw [List.foldl_append, scan_renderObjs os hok 1 0 (-1) 1 (by norm_num)]
  rw [show List.foldl scanStep
      (⟨1, 0, false, false, -1, 1 + (renderObjs os).length⟩ : ScanState) [']'] =
      scanStep ⟨1, 0, false, false, -1, 1 + (renderObjs os).length⟩ ']' from rfl]
  rw [show scanStep (⟨1, 0, false, false, -1, 1 + (renderObjs os).length⟩ : ScanState) ']' =
      ⟨0, 0, false, false, ((1 + (renderObjs os).length : Nat) : Int),
        1 + (renderObjs os).length + 1⟩ by
    simp [scanStep, hpos]]

/-- Pass 3 does not truncate a rendered sanitized array. -/
theorem truncate_render (os : List (List FField)) (hok : okArr os = true) :
    truncateToBalanced (renderArr os) = renderArr os := by
  have hlen : (renderArr os).length = (renderObjs os).length + 2 := by
    simp [renderArr]
  simp only [truncateToBalanced, runScan_renderArr os hok, hlen]
  split
  · rename_i hcond
    exfalso
    obtain ⟨-, h2⟩ := hcond
    push_cast at h2
    omega
  · rfl

/-- Pass 4 keeps a text that already ends with a closing bracket. -/
theorem dropTrailingGarbage_close (l : List Char) :
    dropTrailingGarbage (l ++ [']']) = l ++ [']'] := by
  unfold dropTrailingGarbage
  rw [List.reverse_append]
  simp [List.dropWhile_cons]

set_option maxRecDepth 40000 in
/-- C5 (counterexample): the claim says the repair discards the
incomplete trailing entry, but on the truncated array
`[{"a":1},{"b":2` the repaired text parses to BOTH entries — the
truncated entry `{"b":2` is completed by the appended closers and
retained, not discarded. -/
theorem c5_counterexample :
    jsonParse (cleanJsonForWsd "[\x7b\"a\":1\x7d,\x7b\"b\":2") =
      some (Json.jarr [Json.jobj [("a", Json.jnum 1)],
        Json.jobj [("b", Json.jnum 2)]]) ∧
    jsonParse (cleanJsonForWsd "[\x7b\"a\":1\x7d,\x7b\"b\":2") ≠
      some (Json.jarr [Json.jobj [("a", Json.jnum 1)]]) := by
  have h : jsonParse (cleanJsonForWsd "[\x7b\"a\":1\x7d,\x7b\"b\":2") =
      some (Json.jarr [Json.jobj [("a", Json.jnum 1)],
        Json.jobj [("b", Json.jnum 2)]]) := rfl
  refine ⟨h, ?_⟩
  rw [h]
  simp

/-- C5 (amended): on a rendered sanitized array truncated by dropping
its final closing bracket, or its final closing brace and bracket, the
repair pipeline reconstructs the complete untruncated text, so parsing
recovers every entry, the truncated trailing entry included (completed,
not discarded). -/
theorem c5_amended (os : List (List FField)) (hok : okArr os = true)
    (t : List Char) (ht : renderObjs os = t ++ ['}']) :
    cleanJsonForWsdL ('[' :: renderObjs os) = renderArr os ∧
    cleanJsonForWsdL ('[' :: t) = renderArr os := by
  have hch := chain'_renderArr os hok
  rw [show renderArr os = ('[' :: renderObjs os) ++ [']'] from rfl,
    List.chain'_append] at hch
  have hch1 : ('[' :: renderObjs os).Chain' adjOK := hch.1
  have hch2 : ('[' :: t).Chain' adjOK := by
    have hc := hch1
    rw [show ('[' : Char) :: renderObjs os = ('[' :: t) ++ ['}'] by rw [ht]; rfl,
      List.chain'_append] at hc
    exact hc.1
  constructor
  · unfold cleanJsonForWsdL
    rw [removeTrailingCommas_id _ hch1, appendClosers_take1 os hok,
      truncate_render os hok]
    rw [show renderArr os = ('[' :: renderObjs os) ++ [']'] from rfl]
    exact dropTrailingGarbage_close _
  · unfold cleanJsonForWsdL
    rw [removeTrailingCommas_id _ hch2, appendClosers_take2 os hok t ht,
      truncate_render os hok]
    rw [show renderArr os = ('[' :: renderObjs os) ++ [']'] from rfl]
    exact dropTrailingGarbage_close _

set_option maxRecDepth 40000 in
/-- C5 (witness): the amended theorem applied to the two-object array
`[{"a":1},{"b":2}]`, whose one-closer and two-closer truncations are
both repaired back to the full text. -/
theorem c5_amended_witness :
    okArr [[⟨"a", FVal.fnat 1⟩], [⟨"b", FVal.fnat 2⟩]] = true ∧
    renderObjs [[⟨"a", FVal.fnat 1⟩], [⟨"b", FVal.fnat 2⟩]] =
      ("\x7b\"a\":1\x7d,\x7b\"b\":2").data ++ ['}'] ∧
    (cleanJsonForWsdL ('[' :: renderObjs [[⟨"a", FVal.fnat 1⟩], [⟨"b", FVal.fnat 2⟩]]) =
      renderArr [[⟨"a", FVal.fnat 1⟩], [⟨"b", FVal.fnat 2⟩]] ∧
    cleanJsonForWsdL ('[' :: ("\x7b\"a\":1\x7d,\x7b\"b\":2").data) =
      renderArr [[⟨"a", FVal.fnat 1⟩], [⟨"b", FVal.fnat 2⟩]]) :=
  ⟨by decide, by decide,
    c5_amended [[⟨"a", FVal.fnat 1⟩], [⟨"b", FVal.fnat 2⟩]] (by decide)
      ("\x7b\"a\":1\x7d,\x7b\"b\":2").data (by decide)⟩

set_option maxRecDepth 40000 in
/-- C6 (counterexample): the well-formed input `["a,]"]` parses, but the
repair pipeline rewrites the string literal `"a,]"` to `"a]"` (the
pass-1 regex fires inside the string), so the repaired text parses to a
different value: the pipeline corrupts already-valid JSON. -/
theorem c6_counterexample :
    jsonParse "[\"a,]\"]" = some (Json.jarr [Json.jstr "a,]"]) ∧
    jsonParse (cleanJsonForWsd "[\"a,]\"]") = some (Json.jarr [Json.jstr "a]"]) ∧
    jsonParse (cleanJsonForWsd "[\"a,]\"]") ≠ jsonParse "[\"a,]\"]" := by
  have h1 : jsonParse "[\"a,]\"]" = some (Json.jarr [Json.jstr "a,]"]) := rfl
  have h2 : jsonParse (cleanJsonForWsd "[\"a,]\"]") =
      some (Json.jarr [Json.jstr "a]"]) := rfl
  refine ⟨h1, h2, ?_⟩
  rw [h1, h2]
  simp

/-- C6 (amended): the repair pipeline is the identity — hence preserves
the parse — on every rendered array of flat objects whose keys and
string values avoid braces, brackets, quotes, backslashes and commas;
inputs whose string literals contain a comma followed by a closer are
not preserved. -/
theorem c6_amended (os : List (List FField)) (hok : okArr os = true) :
    cleanJsonForWsdL (renderArr os) = renderArr os := by
  unfold cleanJsonForWsdL
  rw [removeTrailingCommas_id _ (chain'_renderArr os hok),
    appendClosers_render os hok, truncate_render os hok]
  rw [show renderArr os = ('[' :: renderObjs os) ++ [']'] from rfl]
  exact dropTrailingGarbage_close _

set_option maxRecDepth 40000 in
/-- C6 (witness): the amended theorem applied to the concrete array
`[{"word":"api"}]`, on which the pipeline acts as the identity. -/
theorem c6_amended_witness :
    okArr [[⟨"word", FVal.fstr "api"⟩]] = true ∧
    cleanJsonForWsdL (renderArr [[⟨"word", FVal.fstr "api"⟩]]) =
      renderArr [[⟨"word", FVal.fstr "api"⟩]] :=
  ⟨by decide, c6_amended [[⟨"word", FVal.fstr "api"⟩]] (by decide)⟩

end MLex
